import Mathlib

/-!
Verification of the TinyTask-for-Linux macro recorder/player
(`tinytask_enhanced.py`) against its natural-language specification.

The development shallowly embeds the engine: pure helpers become Lean
functions, the stateful recorder and player become explicit state
passing, wall-clock time is rational seconds (a sleep of `d` advances
the clock by exactly `d`; bookkeeping and dispatch take zero time),
and Python exceptions become explicit error values.
-/

namespace TinyTask

/-! ## Key symbol resolution (`SafeKeyParser`) -/

/-- The apostrophe character, used by `key_to_string` to quote single
character keys (Python `f"'{key.char}'"`). -/
def quoteChar : Char := Char.ofNat 39

/-- The member names of the pynput `keyboard.Key` enumeration: the
names that `getattr(Key, name, default)` resolves to an actual key
identity.  `getattr` also resolves the non-member class attributes
listed in `keyClassAttrs` below. -/
def keyNames : List String :=
  ["alt", "alt_gr", "alt_l", "alt_r", "backspace", "caps_lock",
   "cmd", "cmd_l", "cmd_r", "ctrl", "ctrl_l", "ctrl_r", "delete",
   "down", "end", "enter", "esc",
   "f1", "f2", "f3", "f4", "f5", "f6", "f7", "f8", "f9", "f10",
   "f11", "f12", "f13", "f14", "f15", "f16", "f17", "f18", "f19", "f20",
   "home", "insert", "left",
   "media_next", "media_play_pause", "media_previous",
   "media_volume_down", "media_volume_mute", "media_volume_up",
   "menu", "num_lock", "page_down", "page_up", "pause",
   "print_screen", "right", "scroll_lock",
   "shift", "shift_l", "shift_r", "space", "tab", "up"]

/-- Non-member attribute names that `getattr(Key, name, default)`
resolves on the `Key` enumeration class *instead of* returning the
default: class and metaclass attributes reached through `Key`'s
method-resolution order (`Key` is an `enum.Enum` subclass whose
metaclass is `enum.EnumMeta`, itself a subclass of `type`), such as
the `mro` method, dunder attributes of the class object, the
`__members__` property, and enum's internal sunder attributes.
(`"name"` and `"value"` are *not* here: they are
`DynamicClassAttribute` descriptors that raise `AttributeError` when
accessed on the class, so for them `getattr` does return the
default.) -/
def keyClassAttrs : List String :=
  ["mro", "__class__", "__doc__", "__members__", "__module__",
   "__name__", "__qualname__", "__bases__", "__dict__",
   "__init__", "__new__", "__hash__", "__reduce_ex__",
   "_missing_", "_generate_next_value_",
   "_member_names_", "_member_map_", "_value2member_map_"]

/-- Result of `SafeKeyParser.parse_key`: a resolved special key
(`getattr(Key, name)` hits an enum member), a non-key class-attribute
object (`getattr(Key, name)` hits a class or metaclass attribute such
as the `mro` method), a single character (`key_str[1]`), a
`KeyCode.from_char` wrapper around the raw string, or the raw string
returned verbatim (the `getattr` default). -/
inductive ParsedKey where
  | special (name : String)
  | classAttr (name : String)
  | char (c : Char)
  | keycode (s : String)
  | verbatim (s : String)
deriving DecidableEq, Repr

/-- `SafeKeyParser.parse_key`.  Mirrors the source branch by branch:
strings starting with `"Key."` take `key_str.split('.')[1]` (the run of
characters after the first dot, up to the next dot) and look it up with
`getattr(Key, key_name, key_str)`, which resolves enum members and the
non-member class attributes of `keyClassAttrs`, and only otherwise
returns its default, the whole input string verbatim; three-character
strings quoted with apostrophes yield `key_str[1]`; everything else
goes to `KeyCode.from_char`, which never raises (it merely wraps the
string), so the `except` fallback is dead. -/
def parse_key (s : String) : ParsedKey :=
  match s.data with
  | 'K' :: 'e' :: 'y' :: '.' :: rest =>
      let name : String := ⟨rest.takeWhile (fun c => c ≠ '.')⟩
      if name ∈ keyNames then ParsedKey.special name
      else if name ∈ keyClassAttrs then ParsedKey.classAttr name
      else ParsedKey.verbatim s
  | c0 :: c :: c2 :: [] =>
      if c0 = quoteChar ∧ c2 = quoteChar then ParsedKey.char c
      else ParsedKey.keycode s
  | _ => ParsedKey.keycode s

/-- A key delivered by the backend to the keyboard listener: either a
special key (a `Key` enumeration member, which has no `char`
attribute) or a character key (a `KeyCode` carrying a `char`). -/
inductive InKey where
  | special (name : String)
  | char (c : Char)
deriving DecidableEq, Repr

/-- `SafeKeyParser.key_to_string`: character keys print as `'c'`
(apostrophe-quoted), special keys print as `str(key)`, i.e.
`"Key.<name>"`. -/
def key_to_string (k : InKey) : String :=
  match k with
  | InKey.char c => ⟨quoteChar :: c :: quoteChar :: []⟩
  | InKey.special name => "Key." ++ name

/-! ## Capture engine (`EnhancedRecorder`) -/

/-- The `data` payload of a recorded event dictionary. -/
inductive EventData where
  | click (x y : ℤ) (button : String) (pressed : Bool)
  | move (x y : ℤ)
  | scroll (x y dx dy : ℤ)
  | keyData (k : String)
deriving DecidableEq, Repr

/-- One recorded event dictionary `{'type': …, 'data': …, 'time': …}`. -/
structure RecEvent where
  type : String
  data : EventData
  time : ℚ
deriving DecidableEq, Repr

/-- The mutable state of `EnhancedRecorder` that the capture claims
depend on.  `start_time` is `None` before the first `start()`; it is
modelled as `0` (it is only read while `recording` is true, which
`start()` establishes together with a real epoch). -/
structure Recorder where
  events : List RecEvent
  recording : Bool
  startTime : ℚ
  lastMousePos : ℤ × ℤ
  recordMouseMoves : Bool
  mouseMoveThreshold : ℤ
deriving DecidableEq, Repr

/-- `EnhancedRecorder.__init__`: empty log, not recording, last mouse
position `(0, 0)`, movement recording on, threshold 5. -/
def mkRecorder : Recorder :=
  { events := [], recording := false, startTime := 0,
    lastMousePos := (0, 0), recordMouseMoves := true, mouseMoveThreshold := 5 }

/-- `EnhancedRecorder._record_event`: drop the notification unless
`recording` is set; otherwise append it timestamped
`time.time() - start_time` (`now` is the wall clock at the
notification). -/
def recordEvent (r : Recorder) (now : ℚ) (ty : String) (d : EventData) : Recorder :=
  if r.recording then
    { r with events := r.events ++ [{ type := ty, data := d, time := now - r.startTime }] }
  else r

/-- `EnhancedRecorder._on_click`. -/
def onClick (r : Recorder) (now : ℚ) (x y : ℤ) (button : String) (pressed : Bool) : Recorder :=
  recordEvent r now "mouse_click" (EventData.click x y button pressed)

/-- `EnhancedRecorder._on_move`: discard entirely when movement
recording is off; otherwise record iff the displacement from
`last_mouse_pos` reaches the threshold on either axis, and update
`last_mouse_pos` whenever the threshold test passes (note: the
assignment to `last_mouse_pos` is unconditional inside the `if`, so it
happens even when `_record_event` drops the event because recording
has stopped). -/
def onMove (r : Recorder) (now : ℚ) (x y : ℤ) : Recorder :=
  if ¬ r.recordMouseMoves then r
  else
    let lx := r.lastMousePos.1
    let ly := r.lastMousePos.2
    if |x - lx| ≥ r.mouseMoveThreshold ∨ |y - ly| ≥ r.mouseMoveThreshold then
      { recordEvent r now "mouse_move" (EventData.move x y) with lastMousePos := (x, y) }
    else r

/-- `EnhancedRecorder._on_scroll`. -/
def onScroll (r : Recorder) (now : ℚ) (x y dx dy : ℤ) : Recorder :=
  recordEvent r now "mouse_scroll" (EventData.scroll x y dx dy)

/-- `EnhancedRecorder.stop`: clears the recording flag (and sets the
stop event, which only unblocks the waiting `start()` thread). -/
def stopR (r : Recorder) : Recorder :=
  { r with recording := false }

/-- `EnhancedRecorder._on_press`: record the key press first, then
check for the F9 stop hotkey and call `stop()` reentrantly. -/
def onPress (r : Recorder) (now : ℚ) (k : InKey) : Recorder :=
  let r1 := recordEvent r now "key_press" (EventData.keyData (key_to_string k))
  if k = InKey.special "f9" then stopR r1 else r1

/-- `EnhancedRecorder._on_release`. -/
def onRelease (r : Recorder) (now : ℚ) (k : InKey) : Recorder :=
  recordEvent r now "key_release" (EventData.keyData (key_to_string k))

/-- `EnhancedRecorder.start` (the state-resetting part): clears the
log, sets `recording`, records the capture epoch.  `last_mouse_pos`
and `record_mouse_moves` are deliberately NOT touched, exactly as in
the source. -/
def startR (r : Recorder) (now : ℚ) : Recorder :=
  { r with events := [], recording := true, startTime := now }

/-- One backend notification, tagged with the wall-clock instant at
which the listener callback runs. -/
inductive Notif where
  | click (t : ℚ) (x y : ℤ) (button : String) (pressed : Bool)
  | move (t : ℚ) (x y : ℤ)
  | scroll (t : ℚ) (x y dx dy : ℤ)
  | press (t : ℚ) (k : InKey)
  | release (t : ℚ) (k : InKey)
deriving DecidableEq, Repr

/-- Dispatch one notification to the matching listener callback. -/
def stepN (r : Recorder) : Notif → Recorder
  | Notif.click t x y b p => onClick r t x y b p
  | Notif.move t x y => onMove r t x y
  | Notif.scroll t x y dx dy => onScroll r t x y dx dy
  | Notif.press t k => onPress r t k
  | Notif.release t k => onRelease r t k

/-- Deliver a sequence of notifications in arrival order. -/
def runN (r : Recorder) (ns : List Notif) : Recorder := ns.foldl stepN r

/-- Whether a notification is a press of the F9 stop hotkey. -/
def isF9Press : Notif → Bool
  | Notif.press _ (InKey.special n) => n = "f9"
  | _ => false

/-! ## Playback engine (`EnhancedPlayer`)

Wall-clock time is rational seconds starting at 0 when `play` is
entered.  A `time.sleep(d)` advances the clock by exactly `d`; all
other statements take zero time.  The external controller thread is
modelled by an environment fixing the instant at which `stop()` is
called (the `playing` flag then reads false at every later check) and
one interval during which `paused` reads true (a `pause()` /
`resume()` pair). -/

/-- External control: `stopTime` is the instant `stop()` flips
`playing` off; `pauseFrom` is the half-open interval `[p.1, p.2)`
during which `paused` reads true. -/
structure PEnv where
  stopTime : Option ℚ
  pauseFrom : Option (ℚ × ℚ)
deriving DecidableEq, Repr

/-- No stop, no pause. -/
def envFree : PEnv := { stopTime := none, pauseFrom := none }

/-- Value of `self.playing` read at instant `t`. -/
def playingAt (env : PEnv) (t : ℚ) : Bool :=
  match env.stopTime with
  | none => true
  | some s => decide (t < s)

/-- Value of `self.paused` read at instant `t`. -/
def pausedAt (env : PEnv) (t : ℚ) : Bool :=
  match env.pauseFrom with
  | none => false
  | some p => decide (p.1 ≤ t ∧ t < p.2)

/-- One primitive step the playback loop performs, recorded in order:
the single pre-event `time.sleep(delay)`, one `time.sleep(0.1)` of the
pause-poll loop, the fixed `time.sleep(0.1)` between loop iterations,
the dispatch of an event at a wall-clock instant (`ok` tells whether
`_execute_event`'s own try/except body succeeded), a progress-callback
invocation, and the `ZeroDivisionError` raised by
`event['time'] / self.speed_multiplier`. -/
inductive PAction where
  | sleepDelay (d : ℚ)
  | pausePoll
  | settle
  | dispatch (e : RecEvent) (t : ℚ) (ok : Bool)
  | callbackCall (progress : ℚ) (cur tot : ℕ)
  | divisionError
deriving DecidableEq, Repr

/-- The member names of the pynput `mouse.Button` enumeration that
`getattr(mouse.Button, btn_str)` (no default!) can resolve; any other
name raises `AttributeError`, caught by `_execute_event`. -/
def buttonNames : List String :=
  ["left", "middle", "right",
   "scroll_down", "scroll_left", "scroll_right", "scroll_up", "unknown"]

/-- Python `s.split('.')[-1]`: the suffix after the last dot (the
whole string when there is no dot). -/
def lastDotComponent (s : String) : String :=
  ⟨(s.data.reverse.takeWhile (fun c => c ≠ '.')).reverse⟩

/-- Whether `keyboard.Controller.press`/`release` succeeds on the
value `parse_key` produced: a resolved `Key` member or a single
character always injects; a `KeyCode.from_char` wrapper or a raw
string only resolves when it is a single character, and a non-key
class-attribute object (a method, a mappingproxy, ...) never does —
in those cases the backend raises (caught by `_execute_event`). -/
def pressOk (k : ParsedKey) : Bool :=
  match k with
  | ParsedKey.special _ => true
  | ParsedKey.classAttr _ => false
  | ParsedKey.char _ => true
  | ParsedKey.keycode s => s.length = 1
  | ParsedKey.verbatim s => s.length = 1

/-- Whether the body of `_execute_event` runs without raising on this
event.  A payload whose dictionary lacks the fields the branch reads
raises `KeyError` (false); an event type matching none of the five
branches does nothing and succeeds.  Either way the exception is
caught inside `_execute_event`, so this flag never escapes. -/
def execOk (e : RecEvent) : Bool :=
  if e.type = "mouse_move" then
    match e.data with
    | EventData.move _ _ => true
    | EventData.click _ _ _ _ => true
    | EventData.scroll _ _ _ _ => true
    | EventData.keyData _ => false
  else if e.type = "mouse_click" then
    match e.data with
    | EventData.click _ _ b _ => decide (lastDotComponent b ∈ buttonNames)
    | _ => false
  else if e.type = "mouse_scroll" then
    match e.data with
    | EventData.scroll _ _ _ _ => true
    | _ => false
  else if e.type = "key_press" ∨ e.type = "key_release" then
    match e.data with
    | EventData.keyData k => pressOk (parse_key k)
    | _ => false
  else true

/-- The `while self.paused and self.playing: time.sleep(0.1)` poll
loop, entered at instant `t`: returns the exit instant and the polls
performed.  `fuel` bounds the number of iterations unrolled; every
theorem that reaches a pause supplies enough fuel for the pause to
end. -/
def pauseWait (env : PEnv) : ℕ → ℚ → ℚ × List PAction
  | 0, t => (t, [])
  | fuel + 1, t =>
      if pausedAt env t && playingAt env t then
        let rest := pauseWait env fuel (t + 1/10)
        (rest.1, PAction.pausePoll :: rest.2)
      else (t, [])

/-- The `for i, event in enumerate(self.events)` body of
`_play_sequence`, from event index `i` at instant `t`, with loop-local
origin `t0` (the `start_time = time.time()` taken when the sequence
started — never advanced afterwards).  Returns the final instant, the
actions performed, and whether a `ZeroDivisionError` escaped (it
propagates out of `_play_sequence` into `play`'s `except`). -/
def seqRun (env : PEnv) (speed : ℚ) (t0 : ℚ) (cur tot n : ℕ) (fuel : ℕ) :
    List RecEvent → ℕ → ℚ → ℚ × List PAction × Bool
  | [], _, t => (t, [], false)
  | e :: restEvents, i, t =>
      if ¬ playingAt env t then (t, [], false)
      else
        let pw := pauseWait env fuel t
        let t1 := pw.1
        if ¬ playingAt env t1 then (t1, pw.2, false)
        else if speed = 0 then (t1, pw.2 ++ [PAction.divisionError], true)
        else
          let target := e.time / speed
          let elapsed := t1 - t0
          let delay := max 0 (target - elapsed)
          let t2 := t1 + delay
          let sleepActs := if 0 < delay then [PAction.sleepDelay delay] else []
          let disp := PAction.dispatch e t2 (execOk e)
          let cbAct := PAction.callbackCall (((i : ℚ) + 1) / (n : ℚ)) cur tot
          let rest := seqRun env speed t0 cur tot n fuel restEvents (i + 1) t2
          (rest.1, pw.2 ++ sleepActs ++ disp :: cbAct :: rest.2.1, rest.2.2)

/-- `EnhancedPlayer._play_sequence`, called with `current_loop = cur`
(the callback receives `cur + 1`): takes `start_time` at entry and
walks the whole event list.  An empty log falls straight through. -/
def playSeq (env : PEnv) (speed : ℚ) (cur tot : ℕ) (events : List RecEvent) (fuel : ℕ)
    (t : ℚ) : ℚ × List PAction × Bool :=
  seqRun env speed t (cur + 1) tot events.length fuel events 0 t

/-- The `while self.current_loop < self.loop_count and self.playing`
loop of `EnhancedPlayer.play`.  `r` is the remaining iteration budget
`tot - cur` (the count half of the while condition); a 0.1 s settle
sleep runs after every iteration except the last scheduled one, even
when `stop()` arrived mid-sequence — exactly as in the source, where
the sleep precedes the re-test of the while condition.  A
`ZeroDivisionError` escapes the while loop into `play`'s `except`
handler, abandoning the remaining loops. -/
def playLoop (env : PEnv) (speed : ℚ) (tot : ℕ) (events : List RecEvent) (fuel : ℕ) :
    ℕ → ℕ → ℚ → List PAction
  | 0, _, _ => []
  | r + 1, cur, t =>
      if ¬ playingAt env t then []
      else
        let sq := playSeq env speed cur tot events fuel t
        if sq.2.2 then sq.2.1
        else if cur + 1 < tot then
          sq.2.1 ++ PAction.settle :: playLoop env speed tot events fuel r (cur + 1) (sq.1 + 1/10)
        else sq.2.1

/-- `EnhancedPlayer.play(speed, loops, callback)`: the full action
trace of one playback run starting at wall-clock 0. -/
def play (env : PEnv) (speed : ℚ) (loops : ℕ) (events : List RecEvent) (fuel : ℕ) :
    List PAction :=
  playLoop env speed loops events fuel loops 0 0

/-- The events dispatched in a trace, paired with their dispatch
instants. -/
def dispatches (acts : List PAction) : List (RecEvent × ℚ) :=
  acts.filterMap fun a =>
    match a with
    | PAction.dispatch e t _ => some (e, t)
    | _ => none

/-- Just the dispatched events, in dispatch order. -/
def dispatchedEvents (acts : List PAction) : List RecEvent :=
  acts.filterMap fun a =>
    match a with
    | PAction.dispatch e _ _ => some e
    | _ => none

/-- The progress-callback invocations in a trace:
`(fraction, current loop, total loops)`. -/
def cbCalls (acts : List PAction) : List (ℚ × ℕ × ℕ) :=
  acts.filterMap fun a =>
    match a with
    | PAction.callbackCall p c k => some (p, c, k)
    | _ => none

/-- How many inter-loop settle sleeps a trace performs. -/
def settleCount (acts : List PAction) : ℕ :=
  acts.countP fun a =>
    match a with
    | PAction.settle => true
    | _ => false

/-- The dispatched events paired with whether their `_execute_event`
body succeeded. -/
def dispatchesOk (acts : List PAction) : List (RecEvent × Bool) :=
  acts.filterMap fun a =>
    match a with
    | PAction.dispatch e _ ok => some (e, ok)
    | _ => none

/-- An environment in which `stop()` is called at instant `s` and
pause is never used. -/
def envStopAt (s : ℚ) : PEnv := { stopTime := some s, pauseFrom := none }

/-- An environment in which `pause()` is called at instant `p` and
`resume()` at instant q, and `stop()` never. -/
def envPauseIn (p q : ℚ) : PEnv := { stopTime := none, pauseFrom := some (p, q) }

/-- `r` copies of a list, concatenated. -/
def repeatList {α : Type} (xs : List α) : ℕ → List α
  | 0 => []
  | r + 1 => xs ++ repeatList xs r

/-- The progress-callback values `_play_sequence` produces from event
index `i` on, with `len(self.events) = n` and the callback receiving
loop number `cur` of `tot`. -/
def seqCbs (n cur tot : ℕ) : List RecEvent → ℕ → List (ℚ × ℕ × ℕ)
  | [], _ => []
  | _ :: rest, i => (((i : ℚ) + 1) / (n : ℚ), cur, tot) :: seqCbs n cur tot rest (i + 1)

/-- The progress-callback values `play` produces over `r` remaining
loop iterations starting from loop counter `cur`. -/
def cbsFrom (n tot : ℕ) (events : List RecEvent) : ℕ → ℕ → List (ℚ × ℕ × ℕ)
  | 0, _ => []
  | r + 1, cur => seqCbs n (cur + 1) tot events 0 ++ cbsFrom n tot events r (cur + 1)

/-- Sample event: a pointer move recorded at capture offset 0 s. -/
def mvEvent0 : RecEvent := ⟨"mouse_move", EventData.move 0 0, 0⟩

/-- Sample event: a pointer move recorded at capture offset 1 s. -/
def mvEvent1 : RecEvent := ⟨"mouse_move", EventData.move 10 10, 1⟩

/-- Sample event: a pointer move recorded at capture offset 2 s. -/
def mvEvent2 : RecEvent := ⟨"mouse_move", EventData.move 20 20, 2⟩

/-- Sample event: a pointer move recorded at capture offset 1.5 s. -/
def mvEventH : RecEvent := ⟨"mouse_move", EventData.move 15 15, 3 / 2⟩

/-- Sample event: a pointer move recorded at capture offset 5 s. -/
def mvEvent5 : RecEvent := ⟨"mouse_move", EventData.move 50 50, 5⟩

/-- Sample event whose dispatch fails: `parse_key` resolves
`"Key.banana"` to the verbatim string, which the keyboard controller
cannot press (it is not a single character), so `_execute_event`'s
body raises and the exception is caught there. -/
def badKeyEvent : RecEvent := ⟨"key_press", EventData.keyData "Key.banana", 0⟩

/-! ## Persistence codec (`EnhancedRecorder.save` / `load`)

`save` is `json.dump(self.events, f, indent=2)` and `load` is
`self.events = json.load(f)`: the log is already a JSON value (a list
of dicts of strings, ints, floats and bools, with the `data` dict one
level down), so the codec is Python's `json` serialization of exactly
that shape.  The embedding models the JSON values event logs take:
numbers are the decimal literals `repr` produces (an optional sign,
integer digits, and for floats a mandatory fraction — the
scientific-notation form `repr` uses for very small/large floats is
outside the model), strings are printable-ASCII with `"` and `\`
escaped, and nesting is one level deep (records hold scalars and one
flat object), as in every recorded log.  The printer reproduces
`json.dump`'s `indent=2` layout character by character; the parser
implements the JSON grammar restricted to this shape, skipping
whitespace between tokens as `json.load` does and rejecting trailing
garbage. -/

/-- The `"` character. -/
def dquoteChar : Char := Char.ofNat 34

/-- The `\` character. -/
def bslashChar : Char := Char.ofNat 92

/-- The opening curly bracket. -/
def lbraceChar : Char := Char.ofNat 123

/-- The closing curly bracket. -/
def rbraceChar : Char := Char.ofNat 125

/-- A scalar JSON value as it occurs in an event record: an integer
(sign and decimal digits), a float (sign, integer part, and the
fraction digits `repr` printed), a string, or a boolean. -/
inductive JScalar where
  | jint (neg : Bool) (n : ℕ)
  | jfloat (neg : Bool) (ip : ℕ) (frac : List (Fin 10))
  | jstr (s : String)
  | jbool (b : Bool)
deriving DecidableEq, Repr

/-- A field value of an event record: a scalar, or the flat `data`
object mapping keys to scalars. -/
inductive JField where
  | scalar (v : JScalar)
  | obj (fields : List (String × JScalar))
deriving DecidableEq, Repr

/-- One event record: the ordered fields of the event dict. -/
abbrev JRecord := List (String × JField)

/-- Characters stored without escaping or with the two-character
escapes: printable ASCII. -/
def jsonCharOk (c : Char) : Bool := decide (32 ≤ c.toNat ∧ c.toNat < 127)

/-- A string the model covers: printable ASCII content. -/
def wfString (s : String) : Bool := s.data.all jsonCharOk

/-- Scalars the model covers: no `-0` integer (Python never prints
one), a nonempty fraction for floats (Python float `repr` always has
one in non-scientific form), printable-ASCII strings. -/
def wfScalar : JScalar → Bool
  | JScalar.jint neg n => !neg || decide (0 < n)
  | JScalar.jfloat _ _ frac => !frac.isEmpty
  | JScalar.jstr s => wfString s
  | JScalar.jbool _ => true

/-- Well-formedness of a record field value. -/
def wfField : JField → Bool
  | JField.scalar v => wfScalar v
  | JField.obj fs => fs.all (fun kv => wfString kv.1 && wfScalar kv.2)

/-- Well-formedness of a record. -/
def wfRecord (r : JRecord) : Bool :=
  r.all (fun kv => wfString kv.1 && wfField kv.2)

/-- Well-formedness of a whole log. -/
def wfLog (log : List JRecord) : Bool := log.all wfRecord

/-- The decimal digit character for `d < 10`. -/
def digChar (d : ℕ) : Char := Char.ofNat (48 + d)

/-- Decimal digits of `n`, most significant first (`"0"` for 0) —
Python's integer `repr`. -/
def natChars (n : ℕ) : List Char :=
  if n = 0 then ['0'] else ((Nat.digits 10 n).map digChar).reverse

/-- JSON string escaping of one character: `"` and `\` get a
backslash, everything else (printable ASCII) is copied verbatim. -/
def escapeChar (c : Char) : List Char :=
  if c = dquoteChar ∨ c = bslashChar then [bslashChar, c] else [c]

/-- JSON string escaping of a character sequence. -/
def escapeList (cs : List Char) : List Char := cs.flatMap escapeChar

/-- A JSON string literal: quote, escaped content, quote. -/
def printString (s : String) : List Char :=
  dquoteChar :: (escapeList s.data ++ [dquoteChar])

/-- Print one scalar exactly as `json.dump` does. -/
def printScalar : JScalar → List Char
  | JScalar.jint neg n => (if neg then ['-'] else []) ++ natChars n
  | JScalar.jfloat neg ip frac =>
      (if neg then ['-'] else []) ++ natChars ip ++ '.' :: frac.map (fun d => digChar d.val)
  | JScalar.jstr s => printString s
  | JScalar.jbool b => if b then ['t', 'r', 'u', 'e'] else ['f', 'a', 'l', 's', 'e']

/-- The newline-plus-indentation `json.dump(..., indent=2)` emits
before an element nested at depth `d`. -/
def nlIndent (d : ℕ) : List Char := '\n' :: List.replicate (2 * d) ' '

/-- Join parts with a separator (`json.dump`'s item separator `","`
when indenting). -/
def joinSep (sep : List Char) : List (List Char) → List Char
  | [] => []
  | [x] => x
  | x :: y :: rest => x ++ sep ++ joinSep sep (y :: rest)

/-- `"key": scalar`, with `json.dump`'s key separator `": "`. -/
def printKVScalar (kv : String × JScalar) : List Char :=
  printString kv.1 ++ ':' :: ' ' :: printScalar kv.2

/-- The flat `data` object whose opening brace sits at depth `d`. -/
def printObjS (d : ℕ) (fs : List (String × JScalar)) : List Char :=
  match fs with
  | [] => [lbraceChar, rbraceChar]
  | f0 :: fsTail => lbraceChar ::
      (joinSep [','] ((f0 :: fsTail).map fun kv => nlIndent (d + 1) ++ printKVScalar kv) ++
        (nlIndent d ++ [rbraceChar]))

/-- A record field value at depth `d`. -/
def printField (d : ℕ) : JField → List Char
  | JField.scalar v => printScalar v
  | JField.obj fs => printObjS d fs

/-- `"key": value` inside a record whose braces sit at depth `d`. -/
def printKVField (d : ℕ) (kv : String × JField) : List Char :=
  printString kv.1 ++ ':' :: ' ' :: printField d kv.2

/-- One event record whose opening brace sits at depth `d`. -/
def printRecord (d : ℕ) (r : JRecord) : List Char :=
  match r with
  | [] => [lbraceChar, rbraceChar]
  | f0 :: fsTail => lbraceChar ::
      (joinSep [','] ((f0 :: fsTail).map fun kv => nlIndent (d + 1) ++ printKVField (d + 1) kv) ++
        (nlIndent d ++ [rbraceChar]))

/-- The whole log array, as `json.dump(events, f, indent=2)` writes
it. -/
def printLog (log : List JRecord) : List Char :=
  match log with
  | [] => ['[', ']']
  | r0 :: logTail => '[' ::
      (joinSep [','] ((r0 :: logTail).map fun r => nlIndent 1 ++ printRecord 1 r) ++
        (nlIndent 0 ++ [']']))

/-- `EnhancedRecorder.save`: serialize the event list. -/
def save (log : List JRecord) : String := ⟨printLog log⟩

/-- JSON insignificant whitespace. -/
def isWs (c : Char) : Bool := c = ' ' || c = '\n' || c = '\t' || c = '\r'

/-- Skip insignificant whitespace. -/
def skipWs (cs : List Char) : List Char := cs.dropWhile isWs

/-- Decimal digit test. -/
def isDigitCh (c : Char) : Bool := decide (48 ≤ c.toNat ∧ c.toNat ≤ 57)

/-- Value of a decimal digit character. -/
def digitVal (c : Char) : ℕ := c.toNat - 48

/-- Value of a run of decimal digit characters, most significant
first. -/
def digitsToNat (cs : List Char) : ℕ :=
  cs.foldl (fun acc c => 10 * acc + digitVal c) 0

/-- A digit character as a fraction digit. -/
def finOfChar (c : Char) : Fin 10 := ⟨digitVal c % 10, Nat.mod_lt _ (by norm_num)⟩

/-- Parse JSON string content after the opening quote, honouring the
`\"` and `\\` escapes, up to the closing quote. -/
def parseStrChars : List Char → Option (List Char × List Char)
  | [] => none
  | c :: rest =>
      if c = dquoteChar then some ([], rest)
      else if c = bslashChar then
        match rest with
        | [] => none
        | e :: rest2 =>
            if e = dquoteChar || e = bslashChar then
              (parseStrChars rest2).map (fun p => (e :: p.1, p.2))
            else none
      else (parseStrChars rest).map (fun p => (c :: p.1, p.2))

/-- Parse a JSON string literal. -/
def parseString (cs : List Char) : Option (String × List Char) :=
  match cs with
  | c :: rest =>
      if c = dquoteChar then (parseStrChars rest).map (fun p => (⟨p.1⟩, p.2))
      else none
  | [] => none

/-- Parse a JSON number (integer or plain decimal float). -/
def parseNum (cs : List Char) : Option (JScalar × List Char) :=
  let neg : Bool := cs.head? = some '-'
  let cs1 := if neg then cs.tail else cs
  let ds := cs1.takeWhile isDigitCh
  let rest1 := cs1.dropWhile isDigitCh
  if ds.isEmpty then none
  else if rest1.head? = some '.' then
    let fs := rest1.tail.takeWhile isDigitCh
    let rest3 := rest1.tail.dropWhile isDigitCh
    if fs.isEmpty then none
    else some (JScalar.jfloat neg (digitsToNat ds) (fs.map finOfChar), rest3)
  else some (JScalar.jint neg (digitsToNat ds), rest1)

/-- Parse one scalar (string, boolean or number). -/
def parseScalar (cs : List Char) : Option (JScalar × List Char) :=
  match cs with
  | [] => none
  | c :: rest =>
      if c = dquoteChar then
        (parseStrChars rest).map (fun p => (JScalar.jstr ⟨p.1⟩, p.2))
      else if c = 't' then
        match rest with
        | 'r' :: 'u' :: 'e' :: r => some (JScalar.jbool true, r)
        | _ => none
      else if c = 'f' then
        match rest with
        | 'a' :: 'l' :: 's' :: 'e' :: r => some (JScalar.jbool false, r)
        | _ => none
      else parseNum cs

/-- Parse the `"key": scalar` pairs of a nonempty flat object, after
its opening brace, consuming the closing brace. -/
def parsePairsS : ℕ → List Char → Option (List (String × JScalar) × List Char)
  | 0, _ => none
  | fuel + 1, cs =>
      match parseString (skipWs cs) with
      | none => none
      | some (k, r1) =>
          match skipWs r1 with
          | ':' :: r2 =>
              match parseScalar (skipWs r2) with
              | none => none
              | some (v, r3) =>
                  match skipWs r3 with
                  | c :: r4 =>
                      if c = ',' then
                        (parsePairsS fuel r4).map (fun p => ((k, v) :: p.1, p.2))
                      else if c = rbraceChar then some ([(k, v)], r4)
                      else none
                  | [] => none
          | _ => none

/-- Parse a flat object `{ ... }` of scalars. -/
def parseObjS (fuel : ℕ) (cs : List Char) : Option (List (String × JScalar) × List Char) :=
  match cs with
  | c :: rest =>
      if c = lbraceChar then
        match skipWs rest with
        | c2 :: r2 => if c2 = rbraceChar then some ([], r2) else parsePairsS fuel rest
        | [] => none
      else none
  | [] => none

/-- Parse a record field value: a nested object or a scalar. -/
def parseField (fuel : ℕ) (cs : List Char) : Option (JField × List Char) :=
  match cs with
  | c :: _ =>
      if c = lbraceChar then (parseObjS fuel cs).map (fun p => (JField.obj p.1, p.2))
      else (parseScalar cs).map (fun p => (JField.scalar p.1, p.2))
  | [] => none

/-- Parse the `"key": value` pairs of a nonempty record, after its
opening brace, consuming the closing brace. -/
def parsePairsF : ℕ → List Char → Option (JRecord × List Char)
  | 0, _ => none
  | fuel + 1, cs =>
      match parseString (skipWs cs) with
      | none => none
      | some (k, r1) =>
          match skipWs r1 with
          | ':' :: r2 =>
              match parseField fuel (skipWs r2) with
              | none => none
              | some (v, r3) =>
                  match skipWs r3 with
                  | c :: r4 =>
                      if c = ',' then
                        (parsePairsF fuel r4).map (fun p => ((k, v) :: p.1, p.2))
                      else if c = rbraceChar then some ([(k, v)], r4)
                      else none
                  | [] => none
          | _ => none

/-- Parse one record object. -/
def parseRecord (fuel : ℕ) (cs : List Char) : Option (JRecord × List Char) :=
  match cs with
  | c :: rest =>
      if c = lbraceChar then
        match skipWs rest with
        | c2 :: r2 => if c2 = rbraceChar then some ([], r2) else parsePairsF fuel rest
        | [] => none
      else none
  | [] => none

/-- Parse the comma-separated records of a nonempty log array, after
its opening bracket, consuming the closing bracket. -/
def parseRecords : ℕ → List Char → Option (List JRecord × List Char)
  | 0, _ => none
  | fuel + 1, cs =>
      match parseRecord fuel (skipWs cs) with
      | none => none
      | some (r, r1) =>
          match skipWs r1 with
          | c :: r2 =>
              if c = ',' then
                (parseRecords fuel r2).map (fun p => (r :: p.1, p.2))
              else if c = ']' then some ([r], r2)
              else none
          | [] => none

/-- Parse the top-level log array. -/
def parseLog (fuel : ℕ) (cs : List Char) : Option (List JRecord × List Char) :=
  match skipWs cs with
  | c :: rest =>
      if c = '[' then
        match skipWs rest with
        | c2 :: r2 => if c2 = ']' then some ([], r2) else parseRecords fuel rest
        | [] => none
      else none
  | [] => none

/-- `EnhancedRecorder.load`: parse the whole file; trailing
non-whitespace is a parse error, as for `json.load`. -/
def load (s : String) : Option (List JRecord) :=
  match parseLog (s.length + 1) s.data with
  | some (log, rest) => if (skipWs rest).isEmpty then some log else none
  | none => none

/-- Fuel a field value consumes: the pair count of its object. -/
def fieldSize : JField → ℕ
  | JField.scalar _ => 0
  | JField.obj gs => gs.length

/-- Fuel a record consumes. -/
def recordSize (r : JRecord) : ℕ := (r.map fun kv => fieldSize kv.2 + 1).sum

/-- Fuel a log consumes. -/
def logSize (log : List JRecord) : ℕ := (log.map fun r => recordSize r + 1).sum

/-! ## Theorems -/

/-- C7: `parse_key` is a total deterministic function on strings (in
this embedding it is a Lean function, hence total, deterministic and
side-effect-free, and it never evaluates its input: it only inspects
characters and consults the fixed `keyNames` and `keyClassAttrs`
tables).  But the claim's universal fail-closed conjunct is false of
the program: `getattr(Key, key_name, key_str)` returns its default
only when the `Key` class has no attribute of that name at all, so
the unrecognized symbol `"Key.mro"` resolves to the class's `mro`
method — a non-key object, not the unresolved symbol string verbatim
(likewise `__class__`, `__members__`, `__name__`, ...).  An
unrecognized name that collides with no class attribute does come
back verbatim (`"Key.foo"`). -/
theorem C7_parse_key_attr_leak :
    (∀ s : String, ∃ r : ParsedKey, parse_key s = r) ∧
    parse_key "Key.mro" = ParsedKey.classAttr "mro" ∧
    (∀ s : String, parse_key "Key.mro" ≠ ParsedKey.verbatim s) ∧
    parse_key "Key.foo" = ParsedKey.verbatim "Key.foo" := by
  refine ⟨fun s => ⟨parse_key s, rfl⟩, by decide, ?_, by decide⟩
  intro s h
  rw [show parse_key "Key.mro" = ParsedKey.classAttr "mro" from by decide] at h
  exact ParsedKey.noConfusion h

/-- C2 (amended): while recording with movement recording enabled, a
pointer move at `(x, y)` is appended to the log iff
`max |x - lx| |y - ly| ≥ mouse_move_threshold` (default 5) where
`(lx, ly)` is `last_mouse_pos` — the position of the last move that
passed the threshold test since the recorder object was constructed.
That position is initialized to `(0, 0)` in `__init__` and is NOT
reset by `start()`, so it carries over across capture sessions; the
first move of a session is retained only when it clears the threshold
against that carried-over position. -/
theorem C2_move_filter (r : Recorder) (now : ℚ) (x y : ℤ)
    (hrec : r.recording = true) (hmm : r.recordMouseMoves = true) :
    (max |x - r.lastMousePos.1| |y - r.lastMousePos.2| ≥ r.mouseMoveThreshold →
      onMove r now x y =
        { r with
            events := r.events ++ [⟨"mouse_move", EventData.move x y, now - r.startTime⟩],
            lastMousePos := (x, y) }) ∧
    (max |x - r.lastMousePos.1| |y - r.lastMousePos.2| < r.mouseMoveThreshold →
      onMove r now x y = r) := by
  constructor
  · intro h
    have h' : |x - r.lastMousePos.1| ≥ r.mouseMoveThreshold ∨
        |y - r.lastMousePos.2| ≥ r.mouseMoveThreshold := le_max_iff.mp h
    simp only [onMove, hmm, not_true, if_false, recordEvent, hrec, if_true]
    rw [if_pos h']
  · intro h
    have h' : ¬ (|x - r.lastMousePos.1| ≥ r.mouseMoveThreshold ∨
        |y - r.lastMousePos.2| ≥ r.mouseMoveThreshold) := by
      rw [← le_max_iff]
      exact not_le.mpr h
    simp only [onMove, hmm, not_true, if_false]
    rw [if_neg h']

/-- Witness for C2 at a concrete recorder: the first move of the first
session at `(7, 3)` clears the threshold against the initial
`(0, 0)` and is appended. -/
theorem C2_move_filter_witness :
    onMove (startR mkRecorder 0) 0 7 3 =
      { startR mkRecorder 0 with
          events := (startR mkRecorder 0).events ++
            [⟨"mouse_move", EventData.move 7 3, 0 - (startR mkRecorder 0).startTime⟩],
          lastMousePos := (7, 3) } :=
  (C2_move_filter (startR mkRecorder 0) 0 7 3 rfl rfl).1 (by decide)

/-- C2 counterexample: the claim "the first move of every capture
session is always retained" is false.  On a freshly constructed
recorder, `start()` does not reset `last_mouse_pos` (initially
`(0, 0)`), so the session's first move at `(2, 3)` — within 5 pixels
of `(0, 0)` — is dropped even though recording is active and movement
recording is enabled. -/
theorem C2_counterexample :
    (startR mkRecorder 0).recording = true ∧
    (startR mkRecorder 0).recordMouseMoves = true ∧
    (onMove (startR mkRecorder 0) 0 2 3).events = [] := by
  decide

/-- `stepN` never changes the capture epoch. -/
theorem stepN_startTime (r : Recorder) (n : Notif) : (stepN r n).startTime = r.startTime := by
  cases n <;>
    simp only [stepN, onClick, onMove, onScroll, onPress, onRelease, recordEvent, stopR] <;>
    split_ifs <;> rfl

/-- `runN` never changes the capture epoch. -/
theorem runN_startTime (r : Recorder) (ns : List Notif) : (runN r ns).startTime = r.startTime := by
  induction ns generalizing r with
  | nil => rfl
  | cons n ns ih => rw [runN, List.foldl_cons, ← runN, ih, stepN_startTime]

/-- Once `recording` is false, a notification appends nothing and
cannot turn recording back on. -/
theorem stepN_not_recording (r : Recorder) (n : Notif) (h : r.recording = false) :
    (stepN r n).recording = false ∧ (stepN r n).events = r.events := by
  cases n <;>
    simp_all only [stepN, onClick, onMove, onScroll, onPress, onRelease, recordEvent, stopR,
      Bool.false_eq_true, if_false, and_self] <;>
    split_ifs <;> simp_all

/-- After `stop()`, an arbitrary tail of late notifications appends
nothing. -/
theorem runN_not_recording (r : Recorder) (ns : List Notif) (h : r.recording = false) :
    (runN r ns).recording = false ∧ (runN r ns).events = r.events := by
  induction ns generalizing r with
  | nil => exact ⟨h, rfl⟩
  | cons n ns ih =>
      obtain ⟨h1, h2⟩ := stepN_not_recording r n h
      obtain ⟨h3, h4⟩ := ih (stepN r n) h1
      rw [runN, List.foldl_cons, ← runN]
      exact ⟨h3, h4.trans h2⟩

/-- A notification that is not an F9 press leaves `recording` on. -/
theorem stepN_recording (r : Recorder) (n : Notif) (h : r.recording = true)
    (hn : isF9Press n = false) : (stepN r n).recording = true := by
  cases n with
  | press t k =>
      cases k with
      | special name =>
          have hne : name ≠ "f9" := by simpa [isF9Press] using hn
          simp [stepN, onPress, recordEvent, h, hne]
      | char c => simp [stepN, onPress, recordEvent, h]
  | click t x y b p => simp [stepN, onClick, recordEvent, h]
  | move t x y =>
      simp only [stepN, onMove]
      split
      · exact h
      · split <;> simp [recordEvent, h]
  | scroll t x y dx dy => simp [stepN, onScroll, recordEvent, h]
  | release t k => simp [stepN, onRelease, recordEvent, h]

/-- A stream without an F9 press leaves `recording` on. -/
theorem runN_recording (r : Recorder) (ns : List Notif) (h : r.recording = true)
    (hns : ∀ n ∈ ns, isF9Press n = false) : (runN r ns).recording = true := by
  induction ns generalizing r with
  | nil => exact h
  | cons n ns ih =>
      rw [runN, List.foldl_cons, ← runN]
      exact ih (stepN r n) (stepN_recording r n h (hns n (List.mem_cons_self n ns)))
        (fun m hm => hns m (List.mem_cons_of_mem n hm))

/-- C10: if a capture session (recording on) receives a stream of
notifications `pre ++ [press F9 at t] ++ post` where `pre` contains no
F9 press, then the final log is the log accumulated over `pre`
followed by the `key_press` record of the F9 hotkey itself — the
session's final recorded event, appended by `_on_press` before it
calls `stop()` — and the trailing notifications (including the
matching F9 `key_release`) are all dropped because `recording` is
already false when they are handled. -/
theorem C10_stop_hotkey (r : Recorder) (pre post : List Notif) (t : ℚ)
    (hrec : r.recording = true)
    (hpre : ∀ n ∈ pre, isF9Press n = false) :
    (runN r (pre ++ Notif.press t (InKey.special "f9") :: post)).events =
      (runN r pre).events ++
        [⟨"key_press", EventData.keyData "Key.f9", t - r.startTime⟩] ∧
    (runN r (pre ++ Notif.press t (InKey.special "f9") :: post)).recording = false := by
  have hsplit : runN r (pre ++ Notif.press t (InKey.special "f9") :: post) =
      runN (stepN (runN r pre) (Notif.press t (InKey.special "f9"))) post := by
    rw [runN, List.foldl_append, List.foldl_cons]; rfl
  have hr1 : (runN r pre).recording = true := runN_recording r pre hrec hpre
  have hst : (runN r pre).startTime = r.startTime := runN_startTime r pre
  have hstep : stepN (runN r pre) (Notif.press t (InKey.special "f9")) =
      { runN r pre with
          events := (runN r pre).events ++
            [⟨"key_press", EventData.keyData "Key.f9", t - r.startTime⟩],
          recording := false } := by
    simp [stepN, onPress, recordEvent, stopR, hr1, hst, key_to_string]
  obtain ⟨ha, hb⟩ := runN_not_recording
    (stepN (runN r pre) (Notif.press t (InKey.special "f9"))) post (by rw [hstep])
  rw [hsplit]
  refine ⟨?_, ha⟩
  rw [hb, hstep]

/-- Witness for C10: a concrete session — one click, then the F9
press, then the F9 release — records the click and the F9 press, and
nothing else. -/
theorem C10_stop_hotkey_witness :
    (runN (startR mkRecorder 0)
        ([Notif.click 1 4 4 "Button.left" true] ++
          Notif.press 2 (InKey.special "f9") ::
            [Notif.release 3 (InKey.special "f9")])).events =
      (runN (startR mkRecorder 0) [Notif.click 1 4 4 "Button.left" true]).events ++
        [⟨"key_press", EventData.keyData "Key.f9", 2 - (startR mkRecorder 0).startTime⟩] ∧
    (runN (startR mkRecorder 0)
        ([Notif.click 1 4 4 "Button.left" true] ++
          Notif.press 2 (InKey.special "f9") ::
            [Notif.release 3 (InKey.special "f9")])).recording = false :=
  C10_stop_hotkey (startR mkRecorder 0) [Notif.click 1 4 4 "Button.left" true]
    [Notif.release 3 (InKey.special "f9")] 2 rfl (by decide)

/-- Without a stop, the `playing` flag reads true at every check. -/
theorem playingAt_free (t : ℚ) : playingAt envFree t = true := rfl

/-- Without a pause interval, `paused` reads false at every check. -/
theorem pausedAt_nopause (env : PEnv) (h : env.pauseFrom = none) (t : ℚ) :
    pausedAt env t = false := by simp [pausedAt, h]

/-- Without a pause interval the poll loop exits at once. -/
theorem pauseWait_nopause (env : PEnv) (h : env.pauseFrom = none) :
    ∀ (fuel : ℕ) (t : ℚ), pauseWait env fuel t = (t, [])
  | 0, _ => rfl
  | fuel + 1, t => by simp [pauseWait, pausedAt_nopause env h]

/-- Unfolding one event of `_play_sequence` when nothing stops or
pauses the run: a single optional atomic sleep for the full computed
delay, the dispatch, the callback, then the rest of the list. -/
theorem seqRun_free_cons (speed : ℚ) (hs : speed ≠ 0) (t0 : ℚ) (cur tot n fuel : ℕ)
    (e : RecEvent) (rest : List RecEvent) (i : ℕ) (t : ℚ) :
    seqRun envFree speed t0 cur tot n fuel (e :: rest) i t =
      ((seqRun envFree speed t0 cur tot n fuel rest (i + 1)
          (t + max 0 (e.time / speed - (t - t0)))).1,
        (if 0 < max 0 (e.time / speed - (t - t0))
          then [PAction.sleepDelay (max 0 (e.time / speed - (t - t0)))] else []) ++
          PAction.dispatch e (t + max 0 (e.time / speed - (t - t0))) (execOk e) ::
          PAction.callbackCall (((i : ℚ) + 1) / (n : ℚ)) cur tot ::
          (seqRun envFree speed t0 cur tot n fuel rest (i + 1)
            (t + max 0 (e.time / speed - (t - t0)))).2.1,
        (seqRun envFree speed t0 cur tot n fuel rest (i + 1)
          (t + max 0 (e.time / speed - (t - t0)))).2.2) := by
  rw [seqRun]
  simp [playingAt_free, pauseWait_nopause envFree rfl, hs]

/-- The per-event `dispatch` record always carries the success flag
`_execute_event` computed for that event, and`dispatchedEvents` is the
first projection of `dispatchesOk`. -/
theorem dispatchedEvents_eq (acts : List PAction) :
    dispatchedEvents acts = (dispatchesOk acts).map Prod.fst := by
  induction acts with
  | nil => rfl
  | cons a rest ih =>
      cases a <;> simp [dispatchedEvents, dispatchesOk, List.filterMap_cons] at ih ⊢ <;>
        exact ih

/-- `_play_sequence` without stop or pause: never errors with a
nonzero speed, dispatches every event in order with its own
`_execute_event` outcome, reports progress `(i+1)/n` for each, and
performs no settle sleep. -/
theorem seqRun_free_spec (speed : ℚ) (hs : speed ≠ 0) (t0 : ℚ) (cur tot n fuel : ℕ) :
    ∀ (events : List RecEvent) (i : ℕ) (t : ℚ),
      (seqRun envFree speed t0 cur tot n fuel events i t).2.2 = false ∧
      dispatchesOk (seqRun envFree speed t0 cur tot n fuel events i t).2.1 =
        events.map (fun e => (e, execOk e)) ∧
      cbCalls (seqRun envFree speed t0 cur tot n fuel events i t).2.1 =
        seqCbs n cur tot events i ∧
      settleCount (seqRun envFree speed t0 cur tot n fuel events i t).2.1 = 0 := by
  intro events
  induction events with
  | nil =>
      intro i t
      simp [seqRun, dispatchesOk, cbCalls, settleCount, seqCbs]
  | cons e rest ih =>
      intro i t
      obtain ⟨ih1, ih2, ih3, ih4⟩ := ih (i + 1) (t + max 0 (e.time / speed - (t - t0)))
      rw [seqRun_free_cons speed hs t0 cur tot n fuel e rest i t]
      simp only [dispatchesOk, cbCalls, settleCount] at ih2 ih3 ih4 ⊢
      refine ⟨ih1, ?_, ?_, ?_⟩ <;>
        split_ifs <;>
          simp [seqCbs, List.filterMap_cons, List.filterMap_append,
            List.countP_cons, List.countP_append, ih2, ih3, ih4]

/-- With a negative speed every target time `e.time / speed` is
non-positive, so every computed delay clamps to 0 and every event is
dispatched immediately at the sequence start instant. -/
theorem seqRun_neg_speed (speed : ℚ) (hneg : speed < 0) (t0 : ℚ) (cur tot n fuel : ℕ) :
    ∀ (events : List RecEvent) (i : ℕ),
      (∀ e ∈ events, 0 ≤ e.time) →
      dispatches (seqRun envFree speed t0 cur tot n fuel events i t0).2.1 =
        events.map (fun e => (e, t0)) := by
  intro events
  induction events with
  | nil => intro i _; simp [seqRun, dispatches]
  | cons e rest ih =>
      intro i htimes
      have htgt : e.time / speed ≤ 0 :=
        div_nonpos_of_nonneg_of_nonpos (htimes e (List.mem_cons_self e rest)) hneg.le
      have hmax : max 0 (e.time / speed - (t0 - t0)) = 0 :=
        max_eq_left (by simpa using htgt)
      have hrest := ih (i + 1) (fun x hx => htimes x (List.mem_cons_of_mem e hx))
      rw [seqRun_free_cons speed hneg.ne t0 cur tot n fuel e rest i t0, hmax]
      simp only [dispatches, lt_self_iff_false, if_false, add_zero] at hrest ⊢
      simp [List.filterMap_cons, hrest]

/-- Trace projections distribute over concatenation. -/
theorem dispatchesOk_append (a b : List PAction) :
    dispatchesOk (a ++ b) = dispatchesOk a ++ dispatchesOk b := by
  simp [dispatchesOk, List.filterMap_append]

/-- Trace projections distribute over concatenation. -/
theorem cbCalls_append (a b : List PAction) :
    cbCalls (a ++ b) = cbCalls a ++ cbCalls b := by
  simp [cbCalls, List.filterMap_append]

/-- Trace projections distribute over concatenation. -/
theorem settleCount_append (a b : List PAction) :
    settleCount (a ++ b) = settleCount a + settleCount b := by
  simp [settleCount, List.countP_append]

/-- A settle action is invisible to the dispatch projection. -/
theorem dispatchesOk_settle_cons (acts : List PAction) :
    dispatchesOk (PAction.settle :: acts) = dispatchesOk acts := by
  simp [dispatchesOk, List.filterMap_cons]

/-- A settle action is invisible to the callback projection. -/
theorem cbCalls_settle_cons (acts : List PAction) :
    cbCalls (PAction.settle :: acts) = cbCalls acts := by
  simp [cbCalls, List.filterMap_cons]

/-- A settle action adds one to the settle count. -/
theorem settleCount_settle_cons (acts : List PAction) :
    settleCount (PAction.settle :: acts) = settleCount acts + 1 := by
  simp [settleCount, List.countP_cons, Nat.add_comm]

/-- The full `play` while-loop without stop or pause, with `r`
iterations left and `cur + r = tot`: it dispatches `r` copies of the
log (each event with its own `_execute_event` outcome), reports
progress for loops `cur+1, …, cur+r`, and performs `r - 1` settle
sleeps. -/
theorem playLoop_free_spec (speed : ℚ) (hs : speed ≠ 0) (tot : ℕ) (events : List RecEvent)
    (fuel : ℕ) :
    ∀ (r cur : ℕ) (t : ℚ), cur + r = tot →
      dispatchesOk (playLoop envFree speed tot events fuel r cur t) =
        repeatList (events.map fun e => (e, execOk e)) r ∧
      cbCalls (playLoop envFree speed tot events fuel r cur t) =
        cbsFrom events.length tot events r cur ∧
      settleCount (playLoop envFree speed tot events fuel r cur t) = r - 1 := by
  intro r
  induction r with
  | zero =>
      intro cur t _
      simp [playLoop, dispatchesOk, cbCalls, settleCount, repeatList, cbsFrom]
  | succ r ih =>
      intro cur t hcr
      obtain ⟨hq1, hq2, hq3, hq4⟩ :=
        seqRun_free_spec speed hs t (cur + 1) tot events.length fuel events 0 t
      rw [playLoop]
      simp only [playingAt_free, not_true, if_false, playSeq, hq1, Bool.false_eq_true,
        ite_false]
      by_cases hlt : cur + 1 < tot
      · have hr : 0 < r := by omega
        obtain ⟨hi1, hi2, hi3⟩ := ih (cur + 1)
          ((seqRun envFree speed t (cur + 1) tot events.length fuel events 0 t).1 + 1 / 10)
          (by omega)
        rw [if_pos hlt]
        refine ⟨?_, ?_, ?_⟩
        · rw [dispatchesOk_append, hq2, dispatchesOk_settle_cons, hi1]
          rfl
        · rw [cbCalls_append, hq3, cbCalls_settle_cons, hi2]
          rfl
        · rw [settleCount_append, hq4, settleCount_settle_cons, hi3]
          omega
      · have hr : r = 0 := by omega
        subst hr
        rw [if_neg hlt]
        refine ⟨?_, ?_, ?_⟩ <;>
          simp [hq2, hq3, hq4, repeatList, cbsFrom]

/-- `repeatList` length. -/
theorem repeatList_length {α : Type} (xs : List α) :
    ∀ r : ℕ, (repeatList xs r).length = r * xs.length := by
  intro r
  induction r with
  | zero => simp [repeatList]
  | succ r ih => simp [repeatList, ih, Nat.succ_mul, Nat.add_comm]

/-- `seqCbs` in closed form: the `j`-th callback of a sequence begun
at event index `i` carries fraction `(i + j + 1) / n`. -/
theorem seqCbs_eq_map (n cur tot : ℕ) :
    ∀ (events : List RecEvent) (i : ℕ),
      seqCbs n cur tot events i =
        (List.range events.length).map
          (fun j => ((((i + j : ℕ) : ℚ) + 1) / (n : ℚ), cur, tot)) := by
  intro events
  induction events with
  | nil => intro i; simp [seqCbs]
  | cons e rest ih =>
      intro i
      rw [seqCbs, ih (i + 1)]
      simp only [List.length_cons, List.range_succ_eq_map, List.map_cons, List.map_map]
      congr 1
      apply List.map_congr_left
      intro j _
      simp only [Function.comp_apply, Nat.succ_eq_add_one]
      exact congrArg (fun q => (q, cur, tot)) (by push_cast; ring)

/-- `cbsFrom` in closed form: loop `l` (0-based, of the `r` remaining)
reports `currentLoop = cur + l + 1`. -/
theorem cbsFrom_eq_flatMap (n tot : ℕ) (events : List RecEvent) :
    ∀ (r cur : ℕ),
      cbsFrom n tot events r cur =
        (List.range r).flatMap (fun l => seqCbs n (cur + l + 1) tot events 0) := by
  intro r
  induction r with
  | zero => intro cur; simp [cbsFrom]
  | succ r ih =>
      intro cur
      rw [cbsFrom, ih (cur + 1)]
      rw [List.range_succ_eq_map, List.flatMap_cons, List.flatMap_map]
      congr 1
      apply List.flatMap_congr
      intro l _
      congr 1
      omega

/-- A run over an empty log produces no dispatch and no callback. -/
theorem proj_replicate_settle (k : ℕ) :
    dispatchedEvents (List.replicate k PAction.settle) = [] ∧
    cbCalls (List.replicate k PAction.settle) = [] := by
  constructor <;> simp [dispatchedEvents, cbCalls, List.filterMap_replicate]

/-- The `play` while-loop on an empty log: each `_play_sequence` call
returns at once, but the fixed inter-loop settle sleep still runs
between iterations, `r - 1` times in all. -/
theorem playLoop_free_empty (speed : ℚ) (tot fuel : ℕ) :
    ∀ (r cur : ℕ) (t : ℚ), cur + r = tot →
      playLoop envFree speed tot [] fuel r cur t =
        List.replicate (r - 1) PAction.settle := by
  intro r
  induction r with
  | zero => intro cur t _; simp [playLoop]
  | succ r ih =>
      intro cur t hcr
      rw [playLoop]
      simp only [playingAt_free, not_true, if_false, playSeq, seqRun]
      by_cases hlt : cur + 1 < tot
      · have hr : 0 < r := by omega
        rw [if_pos hlt, ih (cur + 1) (t + 1 / 10) (by omega)]
        simp only [List.nil_append]
        have h1 : r + 1 - 1 = r := by omega
        have h2 : r - 1 + 1 = r := by omega
        rw [h1, ← List.replicate_succ, h2]
        simp
      · have hr : r = 0 := by omega
        subst hr
        rw [if_neg hlt]
        rfl

/-- C9: for a nonempty log, `loops = N ≥ 1`, positive speed and no
stop or pause, `play` dispatches exactly `N × len(log)` events, the
progress callback cycles `currentLoop` through `1, …, N` with fraction
`(j+1)/len(log)` inside each loop, and exactly `N - 1` fixed settle
sleeps run — one between consecutive loop iterations, none after the
last. -/
theorem C9_looping (events : List RecEvent) (speed : ℚ) (loops fuel : ℕ)
    (hne : events ≠ []) (hl : 1 ≤ loops) (hs : 0 < speed) :
    (dispatchedEvents (play envFree speed loops events fuel)).length =
      loops * events.length ∧
    cbCalls (play envFree speed loops events fuel) =
      (List.range loops).flatMap (fun l =>
        (List.range events.length).map (fun j : ℕ =>
          (((j : ℚ) + 1) / (events.length : ℚ), l + 1, loops))) ∧
    settleCount (play envFree speed loops events fuel) = loops - 1 := by
  obtain ⟨h1, h2, h3⟩ :=
    playLoop_free_spec speed hs.ne' loops events fuel loops 0 0 (by omega)
  rw [play] at *
  refine ⟨?_, ?_, h3⟩
  · rw [dispatchedEvents_eq, h1, List.length_map, repeatList_length, List.length_map]
  · rw [h2, cbsFrom_eq_flatMap]
    apply List.flatMap_congr
    intro l _
    rw [seqCbs_eq_map]
    apply List.map_congr_left
    intro j _
    simp [Nat.zero_add]

/-- Witness for C9: two events, three loops. -/
theorem C9_looping_witness :
    (dispatchedEvents (play envFree 1 3 [mvEvent0, mvEvent1] 0)).length =
      3 * [mvEvent0, mvEvent1].length ∧
    cbCalls (play envFree 1 3 [mvEvent0, mvEvent1] 0) =
      (List.range 3).flatMap (fun l =>
        (List.range [mvEvent0, mvEvent1].length).map (fun j : ℕ =>
          (((j : ℚ) + 1) / ([mvEvent0, mvEvent1].length : ℚ), l + 1, 3))) ∧
    settleCount (play envFree 1 3 [mvEvent0, mvEvent1] 0) = 3 - 1 :=
  C9_looping [mvEvent0, mvEvent1] 1 3 0 (by simp) (by norm_num) (by norm_num)

/-- C8: a single event whose `_execute_event` body fails (here: an
unresolvable key symbol or button) does not raise out of the playback
loop and does not abort it: the exception is caught at the event
boundary (the event's dispatch record carries `ok = false`, the
logged failure), and every event of the log — including all events
after the failing one — is still dispatched in order. -/
theorem C8_dispatch_failure_contained (events : List RecEvent) (speed : ℚ) (fuel : ℕ)
    (e : RecEvent) (hs : speed ≠ 0) (he : e ∈ events) (hbad : execOk e = false) :
    dispatchedEvents (play envFree speed 1 events fuel) = events ∧
    ∃ t : ℚ, PAction.dispatch e t false ∈ play envFree speed 1 events fuel := by
  obtain ⟨h1, _, _⟩ := playLoop_free_spec speed hs 1 events fuel 1 0 0 (by omega)
  have hok : dispatchesOk (play envFree speed 1 events fuel) =
      events.map (fun e => (e, execOk e)) := by
    rw [play, h1]
    simp [repeatList]
  constructor
  · have hcomp : Prod.fst ∘ (fun e : RecEvent => (e, execOk e)) = id := rfl
    rw [dispatchedEvents_eq, hok, List.map_map, hcomp, List.map_id]
  · have hmem : (e, false) ∈ dispatchesOk (play envFree speed 1 events fuel) := by
      rw [hok, ← hbad]
      exact List.mem_map_of_mem (fun e => (e, execOk e)) he
    obtain ⟨a, ha, hfa⟩ := List.mem_filterMap.mp hmem
    cases a with
    | dispatch e2 t ok =>
        simp only [Option.some.injEq, Prod.mk.injEq] at hfa
        obtain ⟨rfl, rfl⟩ := hfa
        exact ⟨t, ha⟩
    | sleepDelay d => simp at hfa
    | pausePoll => simp at hfa
    | settle => simp at hfa
    | callbackCall p c k => simp at hfa
    | divisionError => simp at hfa

/-- Witness for C8: a log whose first event presses the unresolvable
symbol `"Key.banana"`; the following move event still dispatches. -/
theorem C8_dispatch_failure_witness :
    dispatchedEvents (play envFree 1 1 [badKeyEvent, mvEvent1] 0) =
      [badKeyEvent, mvEvent1] ∧
    ∃ t : ℚ, PAction.dispatch badKeyEvent t false ∈
      play envFree 1 1 [badKeyEvent, mvEvent1] 0 :=
  C8_dispatch_failure_contained [badKeyEvent, mvEvent1] 1 0 badKeyEvent (by norm_num)
    (by simp) (by decide)

/-- C6 (amended): `Play` on an empty log dispatches zero events and
invokes the progress callback zero times for every speed and loop
count — but it does not return immediately for `loops > 1`: the fixed
0.1 s inter-loop settle sleep still runs between iterations, so the
whole trace is exactly `loops - 1` settle sleeps. -/
theorem C6_empty_log (speed : ℚ) (loops fuel : ℕ) :
    play envFree speed loops [] fuel = List.replicate (loops - 1) PAction.settle ∧
    dispatchedEvents (play envFree speed loops [] fuel) = [] ∧
    cbCalls (play envFree speed loops [] fuel) = [] := by
  have h := playLoop_free_empty speed loops fuel loops 0 0 (by omega)
  rw [play, h]
  exact ⟨rfl, (proj_replicate_settle (loops - 1)).1, (proj_replicate_settle (loops - 1)).2⟩

/-- C6 counterexample: the claim "returns immediately" is false for
`loops ≥ 2`: playing an empty log with two loops performs one 0.1 s
settle sleep before returning, so the call does not return
immediately. -/
theorem C6_counterexample :
    play envFree 1 2 [] 0 = [PAction.settle] ∧ play envFree 1 2 [] 0 ≠ [] := by
  have h := playLoop_free_empty 1 2 0 2 0 0 (by omega)
  rw [play, h]
  exact ⟨rfl, by simp⟩

/-- C3 (amended): `play` performs no configuration validation at all.
With zero loops it returns at once having dispatched nothing (the
while condition is false), which is silent, not an error.  With speed
0 on a nonempty log the error surfaces only later, as the
`ZeroDivisionError` of the first delay computation, caught by the
playback-level handler — no event dispatched.  With a negative speed
playback is not rejected: every event of the log is dispatched, all
with zero delay. -/
theorem C3_no_validation (events : List RecEvent) (speed : ℚ) (loops fuel : ℕ) :
    (loops = 0 → play envFree speed loops events fuel = []) ∧
    (1 ≤ loops → events ≠ [] →
      play envFree 0 loops events fuel = [PAction.divisionError] ∧
      dispatchedEvents (play envFree 0 loops events fuel) = []) ∧
    (speed < 0 → (∀ e ∈ events, 0 ≤ e.time) →
      dispatches (play envFree speed 1 events fuel) =
        events.map (fun e => (e, 0))) := by
  refine ⟨?_, ?_, ?_⟩
  · intro h
    subst h
    rfl
  · intro hl hne
    obtain ⟨l, rfl⟩ : ∃ l, loops = l + 1 := ⟨loops - 1, by omega⟩
    obtain ⟨e, rest, rfl⟩ : ∃ e rest, events = e :: rest := by
      cases events with
      | nil => exact absurd rfl hne
      | cons e rest => exact ⟨e, rest, rfl⟩
    constructor <;>
      simp [play, playLoop, playSeq, seqRun, playingAt_free,
        pauseWait_nopause envFree rfl, dispatchedEvents]
  · intro hneg htimes
    have hd := seqRun_neg_speed speed hneg 0 (0 + 1) 1 events.length fuel events 0 htimes
    have he := (seqRun_free_spec speed hneg.ne 0 (0 + 1) 1 events.length fuel events 0 0).1
    rw [play, playLoop]
    simp only [playingAt_free, not_true, if_false, playSeq, he, Bool.false_eq_true,
      ite_false]
    rw [if_neg (by omega)]
    exact hd

/-- Witness for C3 at concrete inputs: zero loops → empty trace;
zero speed → lone division error, nothing dispatched; speed `-1` →
the event is dispatched immediately. -/
theorem C3_no_validation_witness :
    play envFree 1 0 [mvEvent0] 0 = [] ∧
    (play envFree 0 1 [mvEvent0] 0 = [PAction.divisionError] ∧
      dispatchedEvents (play envFree 0 1 [mvEvent0] 0) = []) ∧
    dispatches (play envFree (-1) 1 [mvEvent0] 0) = [mvEvent0].map (fun e => (e, 0)) :=
  ⟨(C3_no_validation [mvEvent0] 1 0 0).1 rfl,
    (C3_no_validation [mvEvent0] 0 1 0).2.1 (by norm_num) (by simp),
    (C3_no_validation [mvEvent0] (-1) 1 0).2.2 (by norm_num)
      (by intro e he; simp at he; simp [he, mvEvent0])⟩

/-- C3 counterexample: the claim "no event is dispatched" for a
non-positive speed is false — `play` with speed `-1` dispatches the
log's event (immediately), because no validation exists. -/
theorem C3_counterexample :
    dispatches (play envFree (-1) 1 [mvEvent1] 0) = [(mvEvent1, 0)] ∧
    dispatches (play envFree (-1) 1 [mvEvent1] 0) ≠ [] := by
  have hd := seqRun_neg_speed (-1) (by norm_num) 0 1 1 1 0 [mvEvent1] 0
    (by norm_num [mvEvent1])
  have he := (seqRun_free_spec (-1) (by norm_num) 0 1 1 1 0 [mvEvent1] 0 0).1
  rw [play, playLoop]
  simp only [playingAt_free, not_true, if_false, playSeq, List.length_cons,
    List.length_nil, he, Bool.false_eq_true, ite_false]
  rw [if_neg (by omega)]
  simp only [List.length_cons, List.length_nil] at hd
  rw [hd]
  exact ⟨rfl, by simp⟩

/-- C4 (amended): stop is only observed at event boundaries and inside
the pause-poll loop; the pre-event delay sleep itself is a single
uninterruptible `time.sleep(delay)`.  If `stop()` arrives at instant
`s` after the loop's flag checks at instant `t`, and a positive delay
is pending, the loop still performs one atomic sleep of the whole
delay and then dispatches the event — regardless of how much of the
sleep lies beyond `s`. -/
theorem C4_atomic_sleep (e : RecEvent) (rest : List RecEvent) (speed t0 : ℚ)
    (cur tot n fuel : ℕ) (i : ℕ) (t s : ℚ) (hs : speed ≠ 0) (hts : t < s)
    (hdelay : 0 < e.time / speed - (t - t0)) :
    (seqRun (envStopAt s) speed t0 cur tot n fuel (e :: rest) i t).2.1 =
      PAction.sleepDelay (e.time / speed - (t - t0)) ::
      PAction.dispatch e (t + (e.time / speed - (t - t0))) (execOk e) ::
      PAction.callbackCall (((i : ℚ) + 1) / (n : ℚ)) cur tot ::
      (seqRun (envStopAt s) speed t0 cur tot n fuel rest (i + 1)
        (t + (e.time / speed - (t - t0)))).2.1 := by
  have hp : playingAt (envStopAt s) t = true := by
    simp [playingAt, envStopAt, hts]
  have hmax : max 0 (e.time / speed - (t - t0)) = e.time / speed - (t - t0) :=
    max_eq_right hdelay.le
  rw [seqRun]
  simp [hp, pauseWait_nopause (envStopAt s) rfl, hs, hmax, hdelay]

/-- Witness for C4: the stop at instant 1 arrives during the 5 s
pre-event sleep, which still runs whole before the event dispatches
at instant 5. -/
theorem C4_atomic_sleep_witness :
    (seqRun (envStopAt 1) 1 0 1 1 2 0 [mvEvent5] 0 0).2.1 =
      [PAction.sleepDelay 5, PAction.dispatch mvEvent5 5 true,
        PAction.callbackCall (1 / 2) 1 1] := by
  have h := C4_atomic_sleep mvEvent5 [] 1 0 1 1 2 0 0 0 1 (by norm_num) (by norm_num)
    (by norm_num [mvEvent5])
  rw [h]
  norm_num [mvEvent5, seqRun, execOk]

/-- C4 counterexample: the claim "Stop() during a pre-event sleep
takes effect within about one 100 ms polling interval" is false.
With `stop()` at instant 1 and a second event due at instant 5,
the loop performs one atomic `sleep(5)` and dispatches that event at
instant 5 — 3.9 s after the deadline `1 + 0.1` the claim allows. -/
theorem C4_counterexample :
    play (envStopAt 1) 1 1 [mvEvent0, mvEvent5] 0 =
      [PAction.dispatch mvEvent0 0 true, PAction.callbackCall (1 / 2) 1 1,
        PAction.sleepDelay 5, PAction.dispatch mvEvent5 5 true,
        PAction.callbackCall 1 1 1] ∧
    (1 + 1 / 10 : ℚ) < 5 := by
  constructor
  · norm_num [play, playLoop, playSeq, seqRun, pauseWait, playingAt, pausedAt, envStopAt,
      mvEvent0, mvEvent5, execOk]
  · norm_num

/-- C1: the pause/resume timing claim is false of the code, and this
is a genuine defect (the spec demands, twice, that no time accrue
against the per-loop schedule while paused).  `_play_sequence` never
advances the loop-local origin `start_time` across a pause, so the
pause duration counts as elapsed time: with events at 0 s, 1 s, 1.5 s
and 2 s, `pause()` at 0.5 s and `resume()` at 2 s, the pause is
observed before the third event; on resume its target (1.5 s) has
already passed, so it and the fourth event are dispatched in a
catch-up burst at instant 2 — the 1.5 s event half a second late
relative to the pre-pause schedule — whereas without the pause they
fire at 1.5 and 2. -/
theorem C1_pause_catchup_burst :
    dispatches (play (envPauseIn (1 / 2) 2) 1 1 [mvEvent0, mvEvent1, mvEventH, mvEvent2] 20) =
      [(mvEvent0, 0), (mvEvent1, 1), (mvEventH, 2), (mvEvent2, 2)] ∧
    dispatches (play envFree 1 1 [mvEvent0, mvEvent1, mvEventH, mvEvent2] 20) =
      [(mvEvent0, 0), (mvEvent1, 1), (mvEventH, 3 / 2), (mvEvent2, 2)] := by
  constructor
  · norm_num [play, playLoop, playSeq, seqRun, pauseWait, playingAt, pausedAt, envPauseIn,
      dispatches, List.filterMap_cons, mvEvent0, mvEvent1, mvEventH, mvEvent2]
  · norm_num [play, playLoop, playSeq, seqRun, pauseWait, playingAt, pausedAt, envFree,
      dispatches, List.filterMap_cons, mvEvent0, mvEvent1, mvEventH, mvEvent2]

/-! ### Codec lemmas -/

/-- `String.mk` is the identity on a string's character list. -/
theorem mk_data (s : String) : String.mk s.data = s := by
  obtain ⟨l⟩ := s
  rfl

/-- Code point of a digit character. -/
theorem digChar_toNat (d : ℕ) (h : d < 10) : (digChar d).toNat = 48 + d := by
  interval_cases d <;> decide

/-- Digit characters pass the digit test. -/
theorem isDigitCh_digChar (d : ℕ) (h : d < 10) : isDigitCh (digChar d) = true := by
  simp only [isDigitCh, digChar_toNat d h, decide_eq_true_eq]
  omega

/-- Digit characters decode to their value. -/
theorem digitVal_digChar (d : ℕ) (h : d < 10) : digitVal (digChar d) = d := by
  simp [digitVal, digChar_toNat d h]

/-- A digit character is not a minus sign. -/
theorem isDigitCh_ne_minus (c : Char) (h : isDigitCh c = true) : c ≠ '-' := by
  intro hc
  subst hc
  simp [isDigitCh] at h

/-- A digit character is not a dot. -/
theorem isDigitCh_ne_dot (c : Char) (h : isDigitCh c = true) : c ≠ '.' := by
  intro hc
  subst hc
  simp [isDigitCh] at h

/-- `natChars` always prints something. -/
theorem natChars_ne_nil (n : ℕ) : natChars n ≠ [] := by
  by_cases h : n = 0
  · simp [natChars, h]
  · simp only [natChars, h, if_false]
    intro hcon
    rw [List.reverse_eq_nil_iff, List.map_eq_nil_iff, Nat.digits_eq_nil_iff_eq_zero] at hcon
    exact h hcon

/-- Every character `natChars` prints is a digit. -/
theorem natChars_digits (n : ℕ) : ∀ c ∈ natChars n, isDigitCh c = true := by
  intro c hc
  by_cases h : n = 0
  · simp [natChars, h] at hc
    subst hc
    decide
  · simp only [natChars, h, if_false, List.mem_reverse, List.mem_map] at hc
    obtain ⟨d, hd, rfl⟩ := hc
    exact isDigitCh_digChar d (Nat.digits_lt_base (by norm_num) hd)

/-- Folding the printed digits back recovers the number. -/
theorem digitsToNat_natChars (n : ℕ) : digitsToNat (natChars n) = n := by
  by_cases h : n = 0
  · subst h
    decide
  · have key : ∀ ds : List ℕ, (∀ d ∈ ds, d < 10) →
        ds.foldr (fun d acc => 10 * acc + digitVal (digChar d)) 0 = Nat.ofDigits 10 ds := by
      intro ds
      induction ds with
      | nil => intro _; simp [Nat.ofDigits]
      | cons d tl ih =>
          intro hds
          rw [List.foldr_cons, Nat.ofDigits_cons,
            ih (fun x hx => hds x (List.mem_cons_of_mem d hx)),
            digitVal_digChar d (hds d (List.mem_cons_self d tl))]
          push_cast
          ring
    simp only [natChars, h, if_false, digitsToNat, List.foldl_reverse, List.foldr_map]
    rw [key (Nat.digits 10 n) (fun d hd => Nat.digits_lt_base (by norm_num) hd),
      Nat.ofDigits_digits]

/-- `takeWhile`/`dropWhile` split exactly at a satisfying prefix
followed by a failing (or absent) head. -/
theorem takeWhile_append_stop {α : Type} (p : α → Bool) :
    ∀ (xs rest : List α), (∀ x ∈ xs, p x = true) →
      (∀ r, rest.head? = some r → p r = false) →
      (xs ++ rest).takeWhile p = xs ∧ (xs ++ rest).dropWhile p = rest := by
  intro xs
  induction xs with
  | nil =>
      intro rest _ hrest
      cases rest with
      | nil => exact ⟨rfl, rfl⟩
      | cons r tl =>
          have hr := hrest r List.head?_cons
          simp [List.takeWhile_cons, List.dropWhile_cons, hr]
  | cons x xs ih =>
      intro rest hxs hrest
      have hx := hxs x (List.mem_cons_self x xs)
      obtain ⟨h1, h2⟩ := ih rest (fun a ha => hxs a (List.mem_cons_of_mem x ha)) hrest
      simp [List.takeWhile_cons, List.dropWhile_cons, hx, h1, h2]

/-- A non-whitespace head stops the whitespace skipper. -/
theorem skipWs_not_ws (c : Char) (cs : List Char) (h : isWs c = false) :
    skipWs (c :: cs) = c :: cs := by
  simp [skipWs, List.dropWhile_cons, h]

/-- Leading spaces are skipped. -/
theorem skipWs_replicate (k : ℕ) (cs : List Char) :
    skipWs (List.replicate k ' ' ++ cs) = skipWs cs := by
  induction k with
  | zero => rfl
  | succ k ih =>
      rw [List.replicate_succ, List.cons_append]
      simpa [skipWs, List.dropWhile_cons, isWs] using ih

/-- The indentation the printer emits is transparent to the parser. -/
theorem skipWs_nlIndent (d : ℕ) (cs : List Char) :
    skipWs (nlIndent d ++ cs) = skipWs cs := by
  rw [nlIndent, List.cons_append]
  simpa [skipWs, List.dropWhile_cons, isWs] using skipWs_replicate (2 * d) cs

/-- Escaped string content parses back to itself, consuming the
closing quote. -/
theorem parseStrChars_print :
    ∀ (s rest : List Char),
      parseStrChars (escapeList s ++ dquoteChar :: rest) = some (s, rest) := by
  intro s
  induction s with
  | nil =>
      intro rest
      show parseStrChars ([] ++ dquoteChar :: rest) = some ([], rest)
      rw [List.nil_append, parseStrChars.eq_def]
      simp
  | cons c s ih =>
      intro rest
      rw [escapeList, List.flatMap_cons, ← escapeList]
      by_cases hc : c = dquoteChar ∨ c = bslashChar
      · have hesc : escapeChar c = [bslashChar, c] := by simp [escapeChar, hc]
        rw [hesc, List.cons_append, List.cons_append, parseStrChars.eq_def]
        have hbs1 : ¬ bslashChar = dquoteChar := by decide
        simp only [hbs1, if_false, if_pos rfl]
        rcases hc with hc | hc <;> simp [hc, ih rest]
      · push_neg at hc
        have hesc : escapeChar c = [c] := by simp [escapeChar, hc.1, hc.2]
        rw [hesc, List.cons_append, parseStrChars.eq_def]
        simp [hc.1, hc.2, ih rest]

/-- A printed string literal parses back to itself. -/
theorem parseString_print (s : String) (rest : List Char) :
    parseString (printString s ++ rest) = some (s, rest) := by
  rw [printString, List.cons_append, parseString.eq_def]
  simp only [if_pos rfl, List.append_assoc, List.cons_append, List.nil_append]
  rw [parseStrChars_print s.data rest]
  simp [mk_data]

/-- Inputs whose next character neither continues a number nor starts
a fraction; the printer always follows a number with one of these. -/
def numStop (rest : List Char) : Prop :=
  ∀ r, rest.head? = some r → isDigitCh r = false ∧ r ≠ '.'

/-- The head of `natChars n ++ rest` is a digit, not a minus sign. -/
theorem natChars_head (n : ℕ) (rest : List Char) :
    ∃ c0 tl, natChars n ++ rest = c0 :: tl ∧ isDigitCh c0 = true := by
  cases h : natChars n with
  | nil => exact absurd h (natChars_ne_nil n)
  | cons c0 tl =>
      refine ⟨c0, tl ++ rest, rfl, ?_⟩
      exact natChars_digits n c0 (by rw [h]; exact List.mem_cons_self c0 tl)

/-- A printed integer parses back to itself whenever what follows
cannot be mistaken for more number. -/
theorem parseNum_print_int (neg : Bool) (n : ℕ) (rest : List Char)
    (hstop : numStop rest) :
    parseNum (printScalar (JScalar.jint neg n) ++ rest) =
      some (JScalar.jint neg n, rest) := by
  have hsplit := takeWhile_append_stop isDigitCh (natChars n) rest (natChars_digits n)
    (fun r hr => (hstop r hr).1)
  have hemp : ((natChars n ++ rest).takeWhile isDigitCh).isEmpty = false := by
    rw [hsplit.1]
    simpa [List.isEmpty_iff] using natChars_ne_nil n
  have hdotr : ¬ rest.head? = some '.' := by
    cases rest with
    | nil => simp
    | cons r tl => simp [List.head?_cons, (hstop r List.head?_cons).2]
  cases neg with
  | true =>
      rw [printScalar]
      rw [show (if (true : Bool) then ['-'] else []) ++ natChars n ++ rest =
        '-' :: (natChars n ++ rest) from by simp]
      rw [parseNum]
      simp only [List.head?_cons, List.tail_cons, decide_eq_true_eq]
      simp [hemp, hsplit.1, hsplit.2, digitsToNat_natChars]
      exact ⟨natChars_ne_nil n, hdotr⟩
  | false =>
      rw [printScalar]
      rw [show (if (false : Bool) then ['-'] else []) ++ natChars n ++ rest =
        natChars n ++ rest from by simp]
      obtain ⟨c0, tl, heq, hdig⟩ := natChars_head n rest
      have hne : c0 ≠ '-' := isDigitCh_ne_minus c0 hdig
      rw [parseNum]
      rw [heq] at hsplit hemp ⊢
      simp only [List.head?_cons, List.tail_cons, decide_eq_true_eq]
      simp [hne, hemp, hsplit.1, hsplit.2, digitsToNat_natChars]
      exact ⟨natChars_ne_nil n, hdotr⟩

/-- A printed float parses back to itself whenever what follows
cannot be mistaken for more number. -/
theorem parseNum_print_float (neg : Bool) (ip : ℕ) (frac : List (Fin 10))
    (rest : List Char) (hfrac : frac ≠ []) (hstop : numStop rest) :
    parseNum (printScalar (JScalar.jfloat neg ip frac) ++ rest) =
      some (JScalar.jfloat neg ip frac, rest) := by
  have hsplit1 := takeWhile_append_stop isDigitCh (natChars ip)
    ('.' :: (frac.map (fun d => digChar d.val) ++ rest)) (natChars_digits ip)
    (by intro r hr; rw [List.head?_cons] at hr; cases hr; decide)
  have hsplit2 := takeWhile_append_stop isDigitCh (frac.map (fun d => digChar d.val)) rest
    (by
      intro c hc
      obtain ⟨d, _, rfl⟩ := List.mem_map.mp hc
      exact isDigitCh_digChar d.val d.isLt)
    (fun r hr => (hstop r hr).1)
  have hemp : ((natChars ip ++ ('.' :: (frac.map (fun d => digChar d.val) ++ rest))).takeWhile
      isDigitCh).isEmpty = false := by
    rw [hsplit1.1]
    simpa [List.isEmpty_iff] using natChars_ne_nil ip
  have hdot : ((natChars ip ++ ('.' :: (frac.map (fun d => digChar d.val) ++
      rest))).dropWhile isDigitCh).head? = some '.' := by
    rw [hsplit1.2, List.head?_cons]
  have hfemp : ((frac.map (fun d => digChar d.val) ++ rest).takeWhile isDigitCh).isEmpty
      = false := by
    rw [hsplit2.1]
    simpa [List.isEmpty_iff, List.map_eq_nil_iff] using hfrac
  have hback : ((natChars ip ++ ('.' :: (frac.map (fun d => digChar d.val) ++
      rest))).dropWhile isDigitCh).tail = frac.map (fun d => digChar d.val) ++ rest := by
    rw [hsplit1.2, List.tail_cons]
  have hfin : (frac.map (fun d => digChar d.val)).map finOfChar = frac := by
    rw [List.map_map]
    have hpt : ∀ d ∈ frac, (finOfChar ∘ fun d => digChar d.val) d = id d := by
      intro d _
      simp only [Function.comp_apply, finOfChar, id]
      apply Fin.ext
      simp [digitVal_digChar d.val d.isLt, Nat.mod_eq_of_lt d.isLt]
    rw [List.map_congr_left hpt, List.map_id]
  have hmid : printScalar (JScalar.jfloat neg ip frac) ++ rest =
      (if neg then ['-'] else []) ++
        (natChars ip ++ ('.' :: (frac.map (fun d => digChar d.val) ++ rest))) := by
    rw [printScalar]
    simp [List.append_assoc]
  cases neg with
  | true =>
      rw [hmid]
      rw [show (if (true : Bool) then ['-'] else []) ++
        (natChars ip ++ ('.' :: (frac.map (fun d => digChar d.val) ++ rest))) =
        '-' :: (natChars ip ++ ('.' :: (frac.map (fun d => digChar d.val) ++ rest)))
        from by simp]
      rw [parseNum]
      simp only [List.head?_cons, List.tail_cons, decide_eq_true_eq]
      simp [hemp, hdot, hback, hfemp, hsplit1.1, hsplit2.1, hsplit2.2,
        digitsToNat_natChars, hfin]
      exact ⟨natChars_ne_nil ip, hfrac⟩
  | false =>
      rw [hmid]
      rw [show (if (false : Bool) then ['-'] else []) ++
        (natChars ip ++ ('.' :: (frac.map (fun d => digChar d.val) ++ rest))) =
        natChars ip ++ ('.' :: (frac.map (fun d => digChar d.val) ++ rest))
        from by simp]
      obtain ⟨c0, tl, heq, hdig⟩ :=
        natChars_head ip ('.' :: (frac.map (fun d => digChar d.val) ++ rest))
      have hne : c0 ≠ '-' := isDigitCh_ne_minus c0 hdig
      rw [parseNum]
      rw [heq] at hsplit1 hemp hdot hback ⊢
      simp only [List.head?_cons, List.tail_cons, decide_eq_true_eq]
      simp [hne, hemp, hdot, hback, hfemp, hsplit1.1, hsplit2.1, hsplit2.2,
        digitsToNat_natChars, hfin]
      exact ⟨natChars_ne_nil ip, hfrac⟩

/-- A digit character is none of the quote, `t`, `f` and brace
characters the parsers dispatch on. -/
theorem isDigitCh_ne_keys (c : Char) (h : isDigitCh c = true) :
    c ≠ dquoteChar ∧ c ≠ 't' ∧ c ≠ 'f' ∧ c ≠ lbraceChar := by
  refine ⟨?_, ?_, ?_, ?_⟩ <;> intro hc <;> subst hc <;> revert h <;> decide

/-- When the input starts with none of `"`have, `t`, `f`, the scalar
parser falls through to the number parser. -/
theorem parseScalar_fallthrough (c : Char) (tl : List Char)
    (h1 : c ≠ dquoteChar) (h2 : c ≠ 't') (h3 : c ≠ 'f') :
    parseScalar (c :: tl) = parseNum (c :: tl) := by
  rw [parseScalar.eq_def]
  simp [h1, h2, h3]

/-- A printed scalar parses back to itself whenever what follows
cannot be mistaken for more number. -/
theorem parseScalar_print (v : JScalar) (rest : List Char) (hwf : wfScalar v = true)
    (hstop : numStop rest) :
    parseScalar (printScalar v ++ rest) = some (v, rest) := by
  cases v with
  | jstr s =>
      rw [printScalar, printString, List.cons_append, parseScalar.eq_def]
      simp only [if_pos rfl, List.append_assoc, List.cons_append, List.nil_append]
      rw [parseStrChars_print s.data rest]
      simp [mk_data]
  | jbool b =>
      cases b with
      | true =>
          rw [printScalar]
          rw [show ((if (true : Bool) then ['t', 'r', 'u', 'e']
            else ['f', 'a', 'l', 's', 'e']) ++ rest) = 't' :: 'r' :: 'u' :: 'e' :: rest
            from by simp]
          rw [parseScalar.eq_def]
          have h1 : ¬ ('t' : Char) = dquoteChar := by decide
          simp [h1]
      | false =>
          rw [printScalar]
          rw [show ((if (false : Bool) then ['t', 'r', 'u', 'e']
            else ['f', 'a', 'l', 's', 'e']) ++ rest) = 'f' :: 'a' :: 'l' :: 's' :: 'e' :: rest
            from by simp]
          rw [parseScalar.eq_def]
          have h1 : ¬ ('f' : Char) = dquoteChar := by decide
          have h2 : ¬ ('f' : Char) = 't' := by decide
          simp [h1, h2]
  | jint neg n =>
      cases neg with
      | true =>
          have hsh : printScalar (JScalar.jint true n) ++ rest = '-' :: (natChars n ++ rest) := by
            rw [printScalar]
            simp
          rw [hsh, parseScalar_fallthrough '-' (natChars n ++ rest) (by decide) (by decide)
            (by decide), ← hsh]
          exact parseNum_print_int true n rest hstop
      | false =>
          obtain ⟨c0, tl, heq, hdig⟩ := natChars_head n rest
          obtain ⟨k1, k2, k3, _⟩ := isDigitCh_ne_keys c0 hdig
          have hsh : printScalar (JScalar.jint false n) ++ rest = c0 :: tl := by
            rw [printScalar]
            simpa using heq
          rw [hsh, parseScalar_fallthrough c0 tl k1 k2 k3, ← hsh]
          exact parseNum_print_int false n rest hstop
  | jfloat neg ip frac =>
      have hfrac : frac ≠ [] := by simpa [wfScalar, List.isEmpty_iff] using hwf
      cases neg with
      | true =>
          have hsh : printScalar (JScalar.jfloat true ip frac) ++ rest =
              '-' :: (natChars ip ++ ('.' :: frac.map (fun d => digChar d.val)) ++ rest) := by
            rw [printScalar]
            simp
          rw [hsh, parseScalar_fallthrough _ _ (by decide) (by decide) (by decide), ← hsh]
          exact parseNum_print_float true ip frac rest hfrac hstop
      | false =>
          obtain ⟨c0, tl, heq, hdig⟩ :=
            natChars_head ip ('.' :: frac.map (fun d => digChar d.val) ++ rest)
          obtain ⟨k1, k2, k3, _⟩ := isDigitCh_ne_keys c0 hdig
          have hsh : printScalar (JScalar.jfloat false ip frac) ++ rest = c0 :: tl := by
            rw [printScalar]
            simpa [List.append_assoc] using heq
          rw [hsh, parseScalar_fallthrough c0 tl k1 k2 k3, ← hsh]
          exact parseNum_print_float false ip frac rest hfrac hstop

/-- A digit character is not whitespace. -/
theorem isDigitCh_not_ws (c : Char) (h : isDigitCh c = true) : isWs c = false := by
  cases hw : isWs c
  · rfl
  · exfalso
    simp only [isWs, Bool.or_eq_true, decide_eq_true_eq] at hw
    rcases hw with ((rfl | rfl) | rfl) | rfl <;> revert h <;> decide

/-- An input starting with a known non-number character satisfies
`numStop`. -/
theorem numStop_head (c : Char) (tl : List Char) (h1 : isDigitCh c = false)
    (h2 : c ≠ '.') : numStop (c :: tl) := by
  intro r hr
  rw [List.head?_cons] at hr
  injection hr with hr
  subst hr
  exact ⟨h1, h2⟩

/-- Printed indentation satisfies `numStop` (it starts with a
newline). -/
theorem numStop_nlIndent (d : ℕ) (cs : List Char) : numStop (nlIndent d ++ cs) := by
  rw [nlIndent, List.cons_append]
  exact numStop_head '\n' _ (by decide) (by decide)

/-- A comma satisfies `numStop`. -/
theorem numStop_comma (cs : List Char) : numStop (',' :: cs) :=
  numStop_head ',' cs (by decide) (by decide)

/-- The head of a printed scalar is a visible character and not an
opening brace. -/
theorem printScalar_head_exposed (v : JScalar) (rest : List Char) :
    ∃ c tl, printScalar v ++ rest = c :: tl ∧ isWs c = false ∧ c ≠ lbraceChar := by
  cases v with
  | jstr s =>
      refine ⟨dquoteChar, (escapeList s.data ++ [dquoteChar]) ++ rest, ?_, by decide,
        by decide⟩
      rw [printScalar, printString, List.cons_append]
  | jbool b =>
      cases b with
      | true =>
          refine ⟨'t', 'r' :: 'u' :: 'e' :: rest, ?_, by decide, by decide⟩
          rw [printScalar]
          simp
      | false =>
          refine ⟨'f', 'a' :: 'l' :: 's' :: 'e' :: rest, ?_, by decide, by decide⟩
          rw [printScalar]
          simp
  | jint neg n =>
      cases neg with
      | true =>
          refine ⟨'-', natChars n ++ rest, ?_, by decide, by decide⟩
          rw [printScalar]
          simp
      | false =>
          obtain ⟨c0, tl, heq, hdig⟩ := natChars_head n rest
          obtain ⟨-, -, -, k4⟩ := isDigitCh_ne_keys c0 hdig
          refine ⟨c0, tl, ?_, isDigitCh_not_ws c0 hdig, k4⟩
          rw [printScalar]
          simpa using heq
  | jfloat neg ip frac =>
      cases neg with
      | true =>
          refine ⟨'-', natChars ip ++ ('.' :: frac.map (fun d => digChar d.val)) ++ rest,
            ?_, by decide, by decide⟩
          rw [printScalar]
          simp
      | false =>
          obtain ⟨c0, tl, heq, hdig⟩ :=
            natChars_head ip ('.' :: frac.map (fun d => digChar d.val) ++ rest)
          obtain ⟨-, -, -, k4⟩ := isDigitCh_ne_keys c0 hdig
          refine ⟨c0, tl, ?_, isDigitCh_not_ws c0 hdig, k4⟩
          rw [printScalar]
          simpa [List.append_assoc] using heq

/-- A printed scalar begins with a visible character. -/
theorem skipWs_printScalar (v : JScalar) (rest : List Char) :
    skipWs (printScalar v ++ rest) = printScalar v ++ rest := by
  obtain ⟨c, tl, heq, hws, -⟩ := printScalar_head_exposed v rest
  rw [heq, skipWs_not_ws c tl hws]

/-- A printed string literal begins with a quote, which is visible. -/
theorem skipWs_printString (s : String) (rest : List Char) :
    skipWs (printString s ++ rest) = printString s ++ rest := by
  rw [printString, List.cons_append, skipWs_not_ws _ _ (by decide)]

/-- A colon is visible. -/
theorem skipWs_colon (cs : List Char) : skipWs (':' :: cs) = ':' :: cs :=
  skipWs_not_ws _ _ (by decide)

/-- A comma is visible. -/
theorem skipWs_comma (cs : List Char) : skipWs (',' :: cs) = ',' :: cs :=
  skipWs_not_ws _ _ (by decide)

/-- A closing brace is visible. -/
theorem skipWs_rbrace (cs : List Char) : skipWs (rbraceChar :: cs) = rbraceChar :: cs :=
  skipWs_not_ws _ _ (by decide)

/-- A closing bracket is visible. -/
theorem skipWs_rbrack (cs : List Char) : skipWs (']' :: cs) = ']' :: cs :=
  skipWs_not_ws _ _ (by decide)

/-- One space of the key separator is skipped. -/
theorem skipWs_space (cs : List Char) : skipWs (' ' :: cs) = skipWs cs := by
  simp [skipWs, List.dropWhile_cons, isWs]

/-- `joinSep` on a singleton. -/
theorem joinSep_single (sep x : List Char) : joinSep sep [x] = x := rfl

/-- `joinSep` on two or more parts. -/
theorem joinSep_cons_cons (sep x y : List Char) (l : List (List Char)) :
    joinSep sep (x :: y :: l) = x ++ sep ++ joinSep sep (y :: l) := rfl

/-- The printed pairs of a nonempty flat `data` object parse back to
the same pairs, consuming the closing brace. -/
theorem parsePairsS_print (d : ℕ) (rest : List Char) :
    ∀ (fs : List (String × JScalar)) (fuel : ℕ), fs ≠ [] → fs.length ≤ fuel →
      (∀ kv ∈ fs, wfScalar kv.2 = true) →
      parsePairsS fuel
        (joinSep [','] (fs.map fun kv => nlIndent (d + 1) ++ printKVScalar kv) ++
          (nlIndent d ++ rbraceChar :: rest)) = some (fs, rest) := by
  intro fs
  induction fs with
  | nil => intro fuel h _ _; exact absurd rfl h
  | cons kv fs' ih =>
      intro fuel _ hlen hwf
      obtain ⟨f, rfl⟩ : ∃ f, fuel = f + 1 :=
        ⟨fuel - 1, by simp at hlen; omega⟩
      obtain ⟨k, v⟩ := kv
      have hwfv : wfScalar v = true := hwf (k, v) (List.mem_cons_self _ _)
      have hnrb : ¬ rbraceChar = ',' := by decide
      cases fs' with
      | nil =>
          have hps := parseScalar_print v (nlIndent d ++ rbraceChar :: rest) hwfv
            (numStop_nlIndent d _)
          rw [List.map_cons, List.map_nil, joinSep_single, parsePairsS.eq_def]
          simp only [List.append_assoc, List.cons_append, skipWs_nlIndent, printKVScalar,
            skipWs_printString, parseString_print, skipWs_colon, skipWs_space,
            skipWs_printScalar, hps, skipWs_rbrace, hnrb, if_false, if_pos rfl]
          simp
      | cons kv2 fs'' =>
          have hps := parseScalar_print v
            (',' :: (joinSep [','] ((kv2 :: fs'').map fun kv => nlIndent (d + 1) ++
              printKVScalar kv) ++ (nlIndent d ++ rbraceChar :: rest))) hwfv
            (numStop_comma _)
          have hih := ih f (by simp) (by simp at hlen ⊢; omega)
            (fun kv hkv => hwf kv (List.mem_cons_of_mem _ hkv))
          rw [List.map_cons] at hps hih
          rw [List.map_cons, List.map_cons, joinSep_cons_cons, parsePairsS.eq_def]
          simp only [printKVScalar, List.append_assoc, List.cons_append,
            List.nil_append] at hps hih ⊢
          simp only [skipWs_nlIndent, skipWs_printString, parseString_print, skipWs_colon,
            skipWs_space, skipWs_printScalar, hps, skipWs_comma, if_pos rfl, hih,
            Option.map_some]
          simp

/-- After whitespace, the printed pairs of a nonempty object start
with the quote of the first key. -/
theorem skipWs_pairsS_head (d : ℕ) (k : String) (v : JScalar)
    (fsTail : List (String × JScalar)) (tail : List Char) :
    ∃ z, skipWs (joinSep [',']
        (((k, v) :: fsTail).map fun kv => nlIndent (d + 1) ++ printKVScalar kv) ++ tail) =
      dquoteChar :: z := by
  cases fsTail with
  | nil =>
      rw [List.map_cons, List.map_nil, joinSep_single, List.append_assoc, skipWs_nlIndent]
      rw [show printKVScalar (k, v) ++ tail =
        printString k ++ (':' :: ' ' :: printScalar v ++ tail) from by
          simp [printKVScalar]]
      rw [skipWs_printString, printString, List.cons_append]
      exact ⟨_, rfl⟩
  | cons kv2 fsTail' =>
      rw [List.map_cons, List.map_cons, joinSep_cons_cons]
      rw [show (nlIndent (d + 1) ++ printKVScalar (k, v)) ++ [','] ++
        joinSep [','] ((nlIndent (d + 1) ++ printKVScalar kv2) ::
          List.map (fun kv => nlIndent (d + 1) ++ printKVScalar kv) fsTail') ++ tail =
        nlIndent (d + 1) ++ (printString k ++ (':' :: ' ' :: printScalar v ++
          ([','] ++ joinSep [','] ((nlIndent (d + 1) ++ printKVScalar kv2) ::
            List.map (fun kv => nlIndent (d + 1) ++ printKVScalar kv) fsTail') ++ tail)))
        from by simp [printKVScalar]]
      rw [skipWs_nlIndent, skipWs_printString, printString, List.cons_append]
      exact ⟨_, rfl⟩

/-- A printed flat object parses back to its pairs. -/
theorem parseObjS_print (d : ℕ) (fs : List (String × JScalar)) (fuel : ℕ)
    (rest : List Char) (hlen : fs.length ≤ fuel)
    (hwf : ∀ kv ∈ fs, wfScalar kv.2 = true) :
    parseObjS fuel (printObjS d fs ++ rest) = some (fs, rest) := by
  cases fs with
  | nil =>
      rw [printObjS, parseObjS.eq_def]
      have h1 : ¬ rbraceChar = lbraceChar := by decide
      simp [skipWs_rbrace, h1]
  | cons kv fsTail =>
      obtain ⟨k, v⟩ := kv
      obtain ⟨z, hz⟩ := skipWs_pairsS_head d k v fsTail (nlIndent d ++ rbraceChar :: rest)
      have hpairs := parsePairsS_print d rest ((k, v) :: fsTail) fuel (by simp) hlen hwf
      rw [printObjS, parseObjS.eq_def]
      rw [show (lbraceChar :: (joinSep [','] (((k, v) :: fsTail).map fun kv =>
          nlIndent (d + 1) ++ printKVScalar kv) ++ (nlIndent d ++ [rbraceChar]))) ++ rest =
        lbraceChar :: (joinSep [','] (((k, v) :: fsTail).map fun kv =>
          nlIndent (d + 1) ++ printKVScalar kv) ++ (nlIndent d ++ rbraceChar :: rest))
        from by simp]
      simp only [if_pos rfl, hz]
      have h2 : ¬ dquoteChar = rbraceChar := by decide
      simp only [h2, if_false, hpairs]
      simp

/-- A printed object starts with its opening brace. -/
theorem printObjS_head (d : ℕ) (fs : List (String × JScalar)) (rest : List Char) :
    ∃ z, printObjS d fs ++ rest = lbraceChar :: z := by
  cases fs with
  | nil => exact ⟨rbraceChar :: rest, rfl⟩
  | cons f0 fsTail =>
      rw [printObjS, List.cons_append]
      exact ⟨_, rfl⟩

/-- A printed field value begins with a visible character. -/
theorem skipWs_printField (d : ℕ) (fv : JField) (rest : List Char) :
    skipWs (printField d fv ++ rest) = printField d fv ++ rest := by
  cases fv with
  | scalar v => exact skipWs_printScalar v rest
  | obj fs =>
      obtain ⟨z, hz⟩ := printObjS_head d fs rest
      rw [printField, hz, skipWs_not_ws _ _ (by decide)]

/-- A printed field value parses back to itself whenever what follows
cannot be mistaken for more number. -/
theorem parseField_print (d : ℕ) (fv : JField) (fuel : ℕ) (rest : List Char)
    (hwf : wfField fv = true) (hsize : fieldSize fv ≤ fuel) (hstop : numStop rest) :
    parseField fuel (printField d fv ++ rest) = some (fv, rest) := by
  cases fv with
  | scalar v =>
      obtain ⟨c, tl, heq, -, hnl⟩ := printScalar_head_exposed v rest
      rw [printField, parseField.eq_def, heq]
      simp only [hnl, if_false]
      rw [← heq, parseScalar_print v rest (by simpa [wfField] using hwf) hstop]
      rfl
  | obj fs =>
      obtain ⟨z, hz⟩ := printObjS_head d fs rest
      have hobj := parseObjS_print d fs fuel rest (by simpa [fieldSize] using hsize)
        (by
          intro kv hkv
          have h1 : fs.all (fun kv => wfString kv.1 && wfScalar kv.2) = true := hwf
          have h2 := List.all_eq_true.mp h1 kv hkv
          simp only [Bool.and_eq_true] at h2
          exact h2.2)
      rw [printField, parseField.eq_def, hz]
      simp only [if_pos rfl]
      rw [← hz, hobj]
      rfl

/-- The printed pairs of a nonempty record parse back to the same
pairs, consuming the closing brace. -/
theorem parsePairsF_print (d : ℕ) (rest : List Char) :
    ∀ (fs : JRecord) (fuel : ℕ), fs ≠ [] → recordSize fs ≤ fuel →
      (∀ kv ∈ fs, (wfString kv.1 && wfField kv.2) = true) →
      parsePairsF fuel
        (joinSep [','] (fs.map fun kv => nlIndent (d + 1) ++ printKVField (d + 1) kv) ++
          (nlIndent d ++ rbraceChar :: rest)) = some (fs, rest) := by
  intro fs
  induction fs with
  | nil => intro fuel h _ _; exact absurd rfl h
  | cons kv fs' ih =>
      intro fuel _ hlen hwf
      have hlen1 : 1 ≤ fuel := by
        have : 1 ≤ recordSize ((kv :: fs')) := by
          simp [recordSize]
          omega
        omega
      obtain ⟨f, rfl⟩ : ∃ f, fuel = f + 1 := ⟨fuel - 1, by omega⟩
      obtain ⟨k, v⟩ := kv
      have hwfkv := hwf (k, v) (List.mem_cons_self _ _)
      have hwfv : wfField v = true := by
        simp only [Bool.and_eq_true] at hwfkv
        exact hwfkv.2
      have hsz : fieldSize v ≤ f := by
        simp only [recordSize, List.map_cons, List.sum_cons] at hlen
        omega
      have hnrb : ¬ rbraceChar = ',' := by decide
      cases fs' with
      | nil =>
          have hpf := parseField_print (d + 1) v f (nlIndent d ++ rbraceChar :: rest) hwfv
            hsz (numStop_nlIndent d _)
          rw [List.map_cons, List.map_nil, joinSep_single, parsePairsF.eq_def]
          simp only [List.append_assoc, List.cons_append, printKVField,
            skipWs_nlIndent, skipWs_printString, parseString_print, skipWs_colon,
            skipWs_space, skipWs_printField, hpf, skipWs_rbrace, hnrb, if_false,
            if_pos rfl]
          simp
      | cons kv2 fs'' =>
          have hpf := parseField_print (d + 1) v f
            (',' :: (joinSep [','] ((kv2 :: fs'').map fun kv => nlIndent (d + 1) ++
              printKVField (d + 1) kv) ++ (nlIndent d ++ rbraceChar :: rest))) hwfv hsz
            (numStop_comma _)
          have hih := ih f (by simp)
            (by simp only [recordSize, List.map_cons, List.sum_cons] at hlen ⊢; omega)
            (fun kv hkv => hwf kv (List.mem_cons_of_mem _ hkv))
          rw [List.map_cons] at hpf hih
          rw [List.map_cons, List.map_cons, joinSep_cons_cons, parsePairsF.eq_def]
          simp only [printKVField, List.append_assoc, List.cons_append,
            List.nil_append] at hpf hih ⊢
          simp only [skipWs_nlIndent, skipWs_printString, parseString_print, skipWs_colon,
            skipWs_space, skipWs_printField, hpf, skipWs_comma, if_pos rfl, hih,
            Option.map_some]
          simp

/-- After whitespace, the printed pairs of a nonempty record start
with the quote of the first key. -/
theorem skipWs_pairsF_head (d : ℕ) (k : String) (v : JField)
    (fsTail : JRecord) (tail : List Char) :
    ∃ z, skipWs (joinSep [',']
        (((k, v) :: fsTail).map fun kv => nlIndent (d + 1) ++ printKVField (d + 1) kv) ++
          tail) = dquoteChar :: z := by
  cases fsTail with
  | nil =>
      rw [List.map_cons, List.map_nil, joinSep_single, List.append_assoc, skipWs_nlIndent]
      rw [show printKVField (d + 1) (k, v) ++ tail =
        printString k ++ (':' :: ' ' :: printField (d + 1) v ++ tail) from by
          simp [printKVField]]
      rw [skipWs_printString, printString, List.cons_append]
      exact ⟨_, rfl⟩
  | cons kv2 fsTail' =>
      rw [List.map_cons, List.map_cons, joinSep_cons_cons]
      rw [show (nlIndent (d + 1) ++ printKVField (d + 1) (k, v)) ++ [','] ++
        joinSep [','] ((nlIndent (d + 1) ++ printKVField (d + 1) kv2) ::
          List.map (fun kv => nlIndent (d + 1) ++ printKVField (d + 1) kv) fsTail') ++ tail =
        nlIndent (d + 1) ++ (printString k ++ (':' :: ' ' :: printField (d + 1) v ++
          ([','] ++ joinSep [','] ((nlIndent (d + 1) ++ printKVField (d + 1) kv2) ::
            List.map (fun kv => nlIndent (d + 1) ++ printKVField (d + 1) kv) fsTail') ++
              tail)))
        from by simp [printKVField]]
      rw [skipWs_nlIndent, skipWs_printString, printString, List.cons_append]
      exact ⟨_, rfl⟩

/-- A printed record parses back to its fields. -/
theorem parseRecord_print (r : JRecord) (fuel : ℕ) (rest : List Char)
    (hlen : recordSize r ≤ fuel) (hwf : wfRecord r = true) :
    parseRecord fuel (printRecord 1 r ++ rest) = some (r, rest) := by
  cases r with
  | nil =>
      rw [printRecord, parseRecord.eq_def]
      have h1 : ¬ rbraceChar = lbraceChar := by decide
      simp [skipWs_rbrace, h1]
  | cons kv fsTail =>
      obtain ⟨k, v⟩ := kv
      obtain ⟨z, hz⟩ := skipWs_pairsF_head 1 k v fsTail (nlIndent 1 ++ rbraceChar :: rest)
      have hall : (((k, v) :: fsTail).all fun kv => wfString kv.1 && wfField kv.2)
          = true := hwf
      have hpairs := parsePairsF_print 1 rest ((k, v) :: fsTail) fuel (by simp) hlen
        (List.all_eq_true.mp hall)
      rw [printRecord, parseRecord.eq_def]
      rw [show (lbraceChar :: (joinSep [','] (((k, v) :: fsTail).map fun kv =>
          nlIndent (1 + 1) ++ printKVField (1 + 1) kv) ++ (nlIndent 1 ++ [rbraceChar])))
            ++ rest =
        lbraceChar :: (joinSep [','] (((k, v) :: fsTail).map fun kv =>
          nlIndent (1 + 1) ++ printKVField (1 + 1) kv) ++
            (nlIndent 1 ++ rbraceChar :: rest)) from by simp]
      simp only [if_pos rfl, hz]
      have h2 : ¬ dquoteChar = rbraceChar := by decide
      simp only [h2, if_false, hpairs]
      simp

/-- A printed record starts with its opening brace. -/
theorem printRecord_head (r : JRecord) (rest : List Char) :
    ∃ z, printRecord 1 r ++ rest = lbraceChar :: z := by
  cases r with
  | nil => exact ⟨rbraceChar :: rest, rfl⟩
  | cons f0 fsTail =>
      rw [printRecord, List.cons_append]
      exact ⟨_, rfl⟩

/-- A printed record begins with a visible character. -/
theorem skipWs_printRecord (r : JRecord) (rest : List Char) :
    skipWs (printRecord 1 r ++ rest) = printRecord 1 r ++ rest := by
  obtain ⟨z, hz⟩ := printRecord_head r rest
  rw [hz, skipWs_not_ws _ _ (by decide)]

/-- After whitespace, the printed records of a nonempty log start
with the opening brace of the first record. -/
theorem skipWs_records_head (r : JRecord) (rsTail : List JRecord) (tail : List Char) :
    ∃ z, skipWs (joinSep [','] ((r :: rsTail).map fun r => nlIndent 1 ++ printRecord 1 r)
      ++ tail) = lbraceChar :: z := by
  cases rsTail with
  | nil =>
      rw [List.map_cons, List.map_nil, joinSep_single, List.append_assoc, skipWs_nlIndent,
        skipWs_printRecord]
      exact printRecord_head r tail
  | cons r2 rsTail' =>
      rw [List.map_cons, List.map_cons, joinSep_cons_cons]
      rw [show (nlIndent 1 ++ printRecord 1 r) ++ [','] ++
        joinSep [','] ((nlIndent 1 ++ printRecord 1 r2) ::
          List.map (fun r => nlIndent 1 ++ printRecord 1 r) rsTail') ++ tail =
        nlIndent 1 ++ (printRecord 1 r ++ ([','] ++
          joinSep [','] ((nlIndent 1 ++ printRecord 1 r2) ::
            List.map (fun r => nlIndent 1 ++ printRecord 1 r) rsTail') ++ tail))
        from by simp]
      rw [skipWs_nlIndent, skipWs_printRecord]
      exact printRecord_head r _

/-- The printed records of a nonempty log parse back to the same
records, consuming the closing bracket. -/
theorem parseRecords_print (rest : List Char) :
    ∀ (rs : List JRecord) (fuel : ℕ), rs ≠ [] → logSize rs ≤ fuel →
      (∀ r ∈ rs, wfRecord r = true) →
      parseRecords fuel
        (joinSep [','] (rs.map fun r => nlIndent 1 ++ printRecord 1 r) ++
          (nlIndent 0 ++ ']' :: rest)) = some (rs, rest) := by
  intro rs
  induction rs with
  | nil => intro fuel h _ _; exact absurd rfl h
  | cons r rs' ih =>
      intro fuel _ hlen hwf
      have h1 : 1 ≤ fuel := by
        simp only [logSize, List.map_cons, List.sum_cons] at hlen
        omega
      obtain ⟨f, rfl⟩ : ∃ f, fuel = f + 1 := ⟨fuel - 1, by omega⟩
      have hwr : wfRecord r = true := hwf r (List.mem_cons_self _ _)
      have hsz : recordSize r ≤ f := by
        simp only [logSize, List.map_cons, List.sum_cons] at hlen
        omega
      have hnrb : ¬ (']' : Char) = ',' := by decide
      cases rs' with
      | nil =>
          have hpr := parseRecord_print r f (nlIndent 0 ++ ']' :: rest) hsz hwr
          rw [List.map_cons, List.map_nil, joinSep_single, parseRecords.eq_def]
          simp only [List.append_assoc, skipWs_nlIndent, skipWs_printRecord, hpr,
            skipWs_rbrack, hnrb, if_false, if_pos rfl]
          simp
      | cons r2 rs'' =>
          have hpr := parseRecord_print r f
            (',' :: (joinSep [','] ((r2 :: rs'').map fun r => nlIndent 1 ++ printRecord 1 r)
              ++ (nlIndent 0 ++ ']' :: rest))) hsz hwr
          have hih := ih f (by simp)
            (by simp only [logSize, List.map_cons, List.sum_cons] at hlen ⊢; omega)
            (fun r hr => hwf r (List.mem_cons_of_mem _ hr))
          rw [List.map_cons] at hpr hih
          rw [List.map_cons, List.map_cons, joinSep_cons_cons, parseRecords.eq_def]
          simp only [List.append_assoc, List.cons_append, List.nil_append] at hpr hih ⊢
          simp only [skipWs_nlIndent, skipWs_printRecord, hpr, skipWs_comma, if_pos rfl,
            hih, Option.map_some]
          simp

/-- A printed log parses back whole. -/
theorem parseLog_print (log : List JRecord) (fuel : ℕ)
    (hfuel : logSize log ≤ fuel) (hwf : wfLog log = true) :
    parseLog fuel (printLog log) = some (log, []) := by
  cases log with
  | nil => rfl
  | cons r logTail =>
      obtain ⟨z, hz⟩ := skipWs_records_head r logTail (nlIndent 0 ++ [']'])
      have hrecs := parseRecords_print [] (r :: logTail) fuel (by simp) hfuel
        (by
          intro x hx
          have h1 : (r :: logTail).all wfRecord = true := hwf
          exact List.all_eq_true.mp h1 x hx)
      have h2 : ¬ lbraceChar = ']' := by decide
      rw [printLog, parseLog, skipWs_not_ws _ _ (by decide)]
      simp only [if_pos rfl, hz, h2, if_false]
      exact hrecs

/-- Concatenation with separators is at least as long as the parts
together. -/
theorem sum_le_joinSep (sep : List Char) :
    ∀ xs : List (List Char), (xs.map List.length).sum ≤ (joinSep sep xs).length := by
  intro xs
  induction xs with
  | nil => simp [joinSep]
  | cons x ys ih =>
      cases ys with
      | nil => simp [joinSep_single]
      | cons y l =>
          rw [joinSep_cons_cons]
          simp only [List.map_cons, List.sum_cons, List.length_append] at ih ⊢
          omega

/-- Pointwise bounds on parts give a bound on their sum. -/
theorem sum_ge_of_parts {α : Type} (g : α → ℕ) (f : α → List Char) :
    ∀ xs : List α, (∀ x ∈ xs, g x ≤ (f x).length) →
      (xs.map g).sum ≤ ((xs.map f).map List.length).sum := by
  intro xs
  induction xs with
  | nil => intro _; simp
  | cons x ys ih =>
      intro h
      simp only [List.map_cons, List.sum_cons]
      have h1 := h x (List.mem_cons_self _ _)
      have h2 := ih (fun a ha => h a (List.mem_cons_of_mem _ ha))
      omega

/-- The printed form of a field value is at least as long as the fuel
it consumes. -/
theorem fieldSize_le_printField (d : ℕ) (fv : JField) :
    fieldSize fv ≤ (printField d fv).length := by
  cases fv with
  | scalar v => simp [fieldSize]
  | obj fs =>
      cases fs with
      | nil => simp [fieldSize, printField, printObjS]
      | cons f0 fsTail =>
          rw [fieldSize, printField, printObjS]
          have hparts := sum_ge_of_parts (fun _ => 1)
            (fun kv => nlIndent (d + 1) ++ printKVScalar kv) (f0 :: fsTail)
            (by intro kv _; simp [nlIndent])
          have hjoin := sum_le_joinSep [',']
            ((f0 :: fsTail).map fun kv => nlIndent (d + 1) ++ printKVScalar kv)
          have hb : ((f0 :: fsTail).map fun _ : String × JScalar => (1 : ℕ)).sum
              = fsTail.length + 1 := by simp [Nat.add_comm]
          simp only [List.length_cons, List.length_append]
          omega

/-- The printed form of a record is at least as long as the fuel it
consumes. -/
theorem recordSize_le_printRecord (r : JRecord) :
    recordSize r ≤ (printRecord 1 r).length := by
  cases r with
  | nil => simp [recordSize, printRecord]
  | cons f0 fsTail =>
      rw [recordSize, printRecord]
      have hparts := sum_ge_of_parts (fun kv => fieldSize kv.2 + 1)
        (fun kv => nlIndent (1 + 1) ++ printKVField (1 + 1) kv) (f0 :: fsTail)
        (by
          intro kv _
          have h1 := fieldSize_le_printField (1 + 1) kv.2
          simp only [List.length_append, nlIndent, printKVField, List.length_cons,
            List.length_replicate]
          omega)
      have hjoin := sum_le_joinSep [',']
        ((f0 :: fsTail).map fun kv => nlIndent (1 + 1) ++ printKVField (1 + 1) kv)
      simp only [List.length_cons, List.length_append]
      omega

/-- The printed form of a log is at least as long as the fuel it
consumes. -/
theorem logSize_le_printLog (log : List JRecord) :
    logSize log ≤ (printLog log).length := by
  cases log with
  | nil => simp [logSize, printLog]
  | cons r logTail =>
      rw [logSize, printLog]
      have hparts := sum_ge_of_parts (fun r => recordSize r + 1)
        (fun r => nlIndent 1 ++ printRecord 1 r) (r :: logTail)
        (by
          intro x _
          have h1 := recordSize_le_printRecord x
          simp only [List.length_append, nlIndent, List.length_cons,
            List.length_replicate]
          omega)
      have hjoin := sum_le_joinSep [',']
        ((r :: logTail).map fun r => nlIndent 1 ++ printRecord 1 r)
      simp only [List.length_cons, List.length_append]
      omega

/-- C5: for every non-empty event log (well-formed in the sense the
serializer covers: printable-ASCII strings, no `-0` integer, floats
with a nonempty printed fraction), saving it with
`EnhancedRecorder.save` (`json.dump(..., indent=2)`) and loading the
result back with `EnhancedRecorder.load` (`json.load`) yields the
original log field by field, float timestamps and coordinates
included: `load (save log) = some log`. -/
theorem C5_save_load_roundtrip (log : List JRecord)
    (hwf : wfLog log = true) (hne : log ≠ []) :
    load (save log) = some log := by
  have hdata : (save log).data = printLog log := rfl
  have hlen : (save log).length = (printLog log).length := rfl
  have hp := parseLog_print log ((save log).length + 1)
    (by
      have h := logSize_le_printLog log
      rw [hlen]
      omega) hwf
  rw [load.eq_def, hdata, hp]
  simp [skipWs]

/-- A concrete recorded event log: one `mouse_move` event with a float
timestamp and integer coordinates. -/
def c5WitnessLog : List JRecord :=
  [[("type", JField.scalar (JScalar.jstr "mouse_move")),
    ("time", JField.scalar (JScalar.jfloat false 0 [(5 : Fin 10)])),
    ("data", JField.obj [("x", JScalar.jint false 100), ("y", JScalar.jint false 50)])]]

/-- Witness for C5 at a concrete one-event log. -/
theorem C5_save_load_roundtrip_witness :
    wfLog c5WitnessLog = true ∧ c5WitnessLog ≠ [] ∧
      load (save c5WitnessLog) = some c5WitnessLog :=
  ⟨by decide, by decide,
    C5_save_load_roundtrip c5WitnessLog (by decide) (by decide)⟩

end TinyTask
